import Mathlib

/-!
Shallow embedding of the aspect-ratio bucketing core of `src/data/dataset.py`
(`AspectRatioDataset`): bucket-table generation, ratio-to-bucket assignment,
batch construction, lead-batch selection and the worker re-randomization hook.

Machine integers are modelled as `ℕ`; the float ratios `w / h` are modelled as
exact rationals `ℚ`; fallible code (python exceptions) returns `Except`.
-/

namespace Dataset

/-- Digit-by-digit (base-4) integer square root, structurally recursive on a
fuel argument so that the kernel can evaluate it on concrete inputs; the
first argument is fuel (any bound `≥ n` works).  `isqrt` below is proved
equal to `Nat.sqrt` (`isqrt_eq_sqrt`), so it faithfully models
`int(np.sqrt(...))` on exactly representable inputs. -/
def isqrtAux : ℕ → ℕ → ℕ
  | 0, _ => 0
  | fuel + 1, n =>
    if n = 0 then 0
    else if n < 4 then 1
    else
      let r := 2 * isqrtAux fuel (n / 4)
      if (r + 1) * (r + 1) ≤ n then r + 1 else r

/-- Integer square root (floor of the real square root). -/
def isqrt (n : ℕ) : ℕ := isqrtAux n n

/-- The construction parameters of `AspectRatioDataset` that the bucketing
core reads: `target_area`, `min_size`, `max_size`, `divisible`. -/
structure Cfg where
  target_area : ℕ
  min_size : ℕ
  max_size : ℕ
  divisible : ℕ
deriving DecidableEq

/-- `np.arange(self.min_size, self.max_size + 1, self.divisible)`
(dataset.py line 83): the arithmetic progression from `min_size` with stride
`divisible`, stopping strictly before `max_size + 1`. -/
def widths (c : Cfg) : List ℕ :=
  (List.range ((c.max_size + 1 - c.min_size + c.divisible - 1) / c.divisible)).map
    (fun k => c.min_size + k * c.divisible)

/-- `np.minimum(self.max_size, ((self.target_area // width) // self.divisible) * self.divisible)`
(dataset.py line 84). `ℕ` division mirrors numpy's floor division (numpy's
integer division by zero yields 0 with a warning, matching `Nat.div`). -/
def height_of (c : Cfg) (w : ℕ) : ℕ :=
  min c.max_size (c.target_area / w / c.divisible * c.divisible)

/-- The `(width, height)` pairs surviving the `height >= self.min_size` mask
(dataset.py lines 85-87). -/
def valid_pairs (c : Cfg) : List (ℕ × ℕ) :=
  (widths c).filterMap (fun w =>
    if c.min_size ≤ height_of c w then some (w, height_of c w) else none)

/-- `(int(np.sqrt(self.target_area)) // self.divisible) * self.divisible`
(dataset.py line 89): the side of the square bucket. -/
def square_side (c : Cfg) : ℕ := isqrt c.target_area / c.divisible * c.divisible

/-- Lexicographic order on `(width, height)` pairs: the order python's
`sorted` uses on tuples (dataset.py line 90). -/
def lex_le (a b : ℕ × ℕ) : Prop := a.1 < b.1 ∨ (a.1 = b.1 ∧ a.2 ≤ b.2)

instance : DecidableRel lex_le := fun a b => by unfold lex_le; exact inferInstance

/-- `self.buckets_sizes = np.array(sorted(resos))` (dataset.py lines 87-90):
the admitted pairs, their mirrors and the square bucket, deduplicated (the
python `set`) and sorted in lexicographic tuple order. -/
def buckets_sizes (c : Cfg) : List (ℕ × ℕ) :=
  ((valid_pairs c ++ (valid_pairs c).map Prod.swap
    ++ [(square_side c, square_side c)]).dedup).insertionSort lex_le

/-- The exact rational `w / h` (the float division `w / h` of the source,
with numpy's `0` for a zero denominator); `mkRat w h = (w : ℚ) / (h : ℚ)`
by `Rat.mkRat_eq_div`, and this form evaluates in the kernel. -/
def ratio_of (w h : ℕ) : ℚ := mkRat w h

/-- `self.bucket_ratios = self.buckets_sizes[:, 0] / self.buckets_sizes[:, 1]`
(dataset.py line 91), as exact rationals. -/
def bucket_ratios (c : Cfg) : List ℚ :=
  (buckets_sizes c).map (fun p => ratio_of p.1 p.2)

/-- `generate_buckets` (dataset.py lines 79-91).  The `assert` on line 80-82
checks `self.target_area % 4096 == 0` (4096 is a literal, independent of
`divisible`); an assert failure is a fatal construction error, modelled as
`.error`.  A zero `divisible` makes `np.arange` raise `ValueError`, also
modelled as `.error`. -/
def generate_buckets (c : Cfg) : Except String (List (ℕ × ℕ) × List ℚ) :=
  if c.target_area % 4096 ≠ 0 then .error "target area (h * w) must be divisible by 64"
  else if c.divisible = 0 then .error "ValueError: arange: step must be nonzero"
  else .ok (buckets_sizes c, bucket_ratios c)

/-- The python exceptions the assignment code can raise. -/
inductive AssignErr
  /-- `idx_chunk[-1]` / `idx_chunk[0]` on an empty chunk: `IndexError`. -/
  | emptyChunk
  /-- the bucket cursor moved outside the bucket-ratio array (on the
  ascending side python raises `IndexError`; on the descending side python
  index `-1` would silently wrap to the last entry — both are modelled as
  this error and proved unreachable where claimed). -/
  | outOfRange
  /-- `% batch_size` with `batch_size = 0`: `ZeroDivisionError`. -/
  | divByZero
  /-- `next()` on an exhausted generator: `StopIteration`. -/
  | stopIteration
deriving DecidableEq

/-- The state written by `assign_buckets`: `self.bucket_content` and
`self.store.to_ratio` (`np.empty` starts uninitialized, hence `Option`). -/
structure AssignResult where
  bucket_content : List (List ℕ)
  to_ratio : List (Option ℚ)
deriving DecidableEq, Inhabited

instance {ε α : Type} [DecidableEq ε] [DecidableEq α] : DecidableEq (Except ε α) :=
  fun a b =>
    match a, b with
    | .error e, .error e' =>
      if h : e = e' then .isTrue (by rw [h]) else .isFalse (by intro hc; cases hc; exact h rfl)
    | .error _, .ok _ => .isFalse (by intro hc; cases hc)
    | .ok _, .error _ => .isFalse (by intro hc; cases hc)
    | .ok v, .ok v' =>
      if h : v = v' then .isTrue (by rw [h]) else .isFalse (by intro hc; cases hc; exact h rfl)

/-- The landscape cursor loop
`while self.bucket_ratios[bucket_idx] < img_ratios[idx]: bucket_idx += 1`
(dataset.py lines 118-119), structurally recursive on a fuel argument
(`ratios.length + 1` steps always suffice, see `advance_up`): first position
`≥ b` whose ratio is not below `r`; running past the end of the array is
python's `IndexError`, modelled as `.outOfRange`. -/
def advance_up_fuel (ratios : List ℚ) (r : ℚ) : ℕ → ℕ → Except AssignErr ℕ
  | 0, _ => .error .outOfRange
  | fuel + 1, b =>
    if h : b < ratios.length then
      if ratios[b] < r then advance_up_fuel ratios r fuel (b + 1) else .ok b
    else .error .outOfRange

/-- The landscape cursor loop with the (sufficient) fuel filled in. -/
def advance_up (ratios : List ℚ) (r : ℚ) (b : ℕ) : Except AssignErr ℕ :=
  advance_up_fuel ratios r (ratios.length + 1) b

/-- The portrait cursor loop
`while self.bucket_ratios[bucket_idx] > img_ratios[idx]: bucket_idx -= 1`
(dataset.py lines 136-137): first position `≤ b` (descending) whose ratio is
not above `r`.  Descending past 0 would make python read index `-1`
(wrap-around); it is modelled as `.outOfRange` and proved unreachable. -/
def advance_down_fuel (ratios : List ℚ) (r : ℚ) : ℕ → ℕ → Except AssignErr ℕ
  | 0, _ => .error .outOfRange
  | fuel + 1, b =>
    if h : b < ratios.length then
      if r < ratios[b] then
        if b = 0 then .error .outOfRange else advance_down_fuel ratios r fuel (b - 1)
      else .ok b
    else .error .outOfRange

/-- The portrait cursor loop with the (sufficient) fuel filled in. -/
def advance_down (ratios : List ℚ) (r : ℚ) (b : ℕ) : Except AssignErr ℕ :=
  advance_down_fuel ratios r (b + 1) b

/-- `np.split(arr, k)` at the two call sites (dataset.py lines 111, 128):
`k` consecutive sections, each of the section size `s` that numpy computes as
`len(arr) / k` (the call sites always divide evenly). -/
def npSplit (k s : ℕ) (l : List ℕ) : List (List ℕ) :=
  match k with
  | 0 => []
  | k + 1 => l.take s :: npSplit k s (l.drop s)

/-- The landscape chunking (dataset.py lines 106-114).  Beware the source's
`landscape_idxs[:-reminder]`: when `reminder == 0` this python slice is
*empty*, so `np.split` yields `idx_size // batch_size` empty chunks. -/
def landscape_chunks (B : ℕ) (L : List ℕ) : List (List ℕ) :=
  let n := L.length
  let rem := n % B
  let arr := if rem = 0 then [] else L.take (n - rem)
  let base := if B ≤ n then npSplit (n / B) (arr.length / (n / B)) arr else []
  base ++ (if rem = 0 then [] else [L.drop (n - rem)])

/-- The portrait chunking (dataset.py lines 123-131): the full chunks of
`portrait_idxs[reminder:]` in reversed order, then the remainder
`portrait_idxs[:reminder]`. -/
def portrait_chunks (B : ℕ) (P : List ℕ) : List (List ℕ) :=
  let n := P.length
  let rem := n % B
  let base := if B ≤ n then (npSplit (n / B) ((n - rem) / (n / B)) (P.drop rem)).reverse else []
  base ++ (if rem = 0 then [] else [P.take rem])

/-- `self.store.to_ratio[idx_chunk] = v` (dataset.py lines 121, 139). -/
def set_ratios (tr : List (Option ℚ)) (chunk : List ℕ) (v : ℚ) : List (Option ℚ) :=
  chunk.foldl (fun a i => a.set i (some v)) tr

/-- The landscape assignment loop (dataset.py lines 116-121): for each chunk
take its last element (`IndexError` if the chunk is empty), advance the
cursor, extend that bucket's content and record the bucket ratio. -/
def process_up (ratios imgR : List ℚ) :
    List (List ℕ) → ℕ → AssignResult → Except AssignErr AssignResult
  | [], _, st => .ok st
  | c :: rest, b, st =>
    match c.getLast? with
    | none => .error .emptyChunk
    | some idx =>
      match advance_up ratios (imgR.getD idx 0) b with
      | .error e => .error e
      | .ok b' =>
        process_up ratios imgR rest b'
          { bucket_content := st.bucket_content.set b' (st.bucket_content.getD b' [] ++ c)
            to_ratio := set_ratios st.to_ratio c (ratios.getD b' 0) }

/-- The portrait assignment loop (dataset.py lines 134-139): as `process_up`
but the deciding element is the chunk's first and the cursor descends. -/
def process_down (ratios imgR : List ℚ) :
    List (List ℕ) → ℕ → AssignResult → Except AssignErr AssignResult
  | [], _, st => .ok st
  | c :: rest, b, st =>
    match c.head? with
    | none => .error .emptyChunk
    | some idx =>
      match advance_down ratios (imgR.getD idx 0) b with
      | .error e => .error e
      | .ok b' =>
        process_down ratios imgR rest b'
          { bucket_content := st.bucket_content.set b' (st.bucket_content.getD b' [] ++ c)
            to_ratio := set_ratios st.to_ratio c (ratios.getD b' 0) }

/-- `img_idxs = np.argsort(img_ratios)` (dataset.py line 97), modelled as a
stable sort of the index range by ratio. -/
def img_idxs (imgR : List ℚ) : List ℕ :=
  (List.range imgR.length).insertionSort (fun i j => imgR.getD i 0 ≤ imgR.getD j 0)

/-- `landscape_idxs = img_idxs[img_ratios[img_idxs] <= 1]` (line 98). -/
def landscape_idxs (imgR : List ℚ) : List ℕ :=
  (img_idxs imgR).filter (fun i => decide (imgR.getD i 0 ≤ 1))

/-- `portrait_idxs = img_idxs[img_ratios[img_idxs] > 1]` (line 99). -/
def portrait_idxs (imgR : List ℚ) : List ℕ :=
  (img_idxs imgR).filter (fun i => !(decide (imgR.getD i 0 ≤ 1)))

/-- `assign_buckets` (dataset.py lines 93-139), as a function of the bucket
ratio table, the per-item raw ratios (`img_ratios`, line 96, exact rationals)
and `batch_size`.  Returns the rebuilt `bucket_content` / `to_ratio`, or the
python exception the source would raise. -/
def assign_buckets (ratios imgR : List ℚ) (B : ℕ) : Except AssignErr AssignResult :=
  if B = 0 then .error .divByZero
  else
    let st0 : AssignResult :=
      ⟨List.replicate ratios.length [], List.replicate imgR.length none⟩
    match process_up ratios imgR (landscape_chunks B (landscape_idxs imgR)) 0 st0 with
    | .error e => .error e
    | .ok st1 =>
      process_down ratios imgR (portrait_chunks B (portrait_idxs imgR)) (ratios.length - 1) st1

/-- One bucket's batches in `assign_batches` (dataset.py lines 146-153):
split the (already shuffled) content into rows of `batch_size`; a nonzero
remainder becomes a final short batch. -/
def bucket_batches (B : ℕ) (l : List ℕ) : List (List ℕ) :=
  let rem := l.length % B
  if rem = 0 then npSplit (l.length / B) B l
  else npSplit (l.length / B) B (l.take (l.length - rem)) ++ [l.drop (l.length - rem)]

/-- `assign_batches` (dataset.py lines 141-154).  The two random sources are
explicit: `sh s bucket` models `self.rng.shuffle(bucket)` at generator state
`s` (the numpy `Generator` owned by the dataset), `shG g batches` models the
global `np.random.shuffle(self.batch_idxs)` at global-RNG state `g`; each
call advances its state by one draw.  Returns the batch list and the two
advanced states. -/
def assign_batches (B : ℕ) (sh : ℕ → List ℕ → List ℕ)
    (shG : ℕ → List (List ℕ) → List (List ℕ)) (s0 g0 : ℕ)
    (content : List (List ℕ)) : Except AssignErr (List (List ℕ) × ℕ × ℕ) :=
  if B = 0 then .error .divByZero
  else
    let p := content.foldl
      (fun (acc : List (List ℕ) × ℕ) bucket =>
        if bucket.isEmpty then acc
        else (acc.1 ++ bucket_batches B (sh acc.2 bucket), acc.2 + 1))
      ([], s0)
    .ok (shG g0 p.1, p.2, g0 + 1)

/-- `put_most_oom_like_batch_first` (dataset.py lines 156-164): the
representative item is the first element yielded by
`chain(self.bucket_content, reversed(self.bucket_content))` restricted to
non-empty buckets; the batch containing it is swapped with position 0.
An exhausted `next()` raises `StopIteration`, modelled as `none`. -/
def put_most_oom_like_batch_first (content : List (List ℕ))
    (batches : List (List ℕ)) : Option (List (List ℕ)) :=
  match (content ++ content.reverse).findSome? List.head? with
  | none => none
  | some rep =>
    match batches.findIdx? (fun b => b.contains rep) with
    | none => none
    | some i => some ((batches.set 0 (batches.getD i [])).set i (batches.getD 0 []))

/-- `self._length = int(np.ceil(self.store.length / self.batch_size))`
(dataset.py line 72): the reported length, `⌈storeLength / batchSize⌉`. -/
def reported_length (storeLength B : ℕ) : ℕ := (storeLength + B - 1) / B

/-- The per-worker mutable state of `AspectRatioDataset` touched by
`worker_init_fn`, together with the three process-level random states that
the source draws from: the python stdlib `random` module state (written by
`random.seed`), the dataset's own `np.random.default_rng` generator state,
and numpy's global RNG state. -/
structure DS where
  bucketRatios : List ℚ
  imgRatios : List ℚ
  batch_size : ℕ
  length_field : ℕ
  bucket_content : List (List ℕ)
  to_ratio : List (Option ℚ)
  batch_idxs : List (List ℕ)
  py_random : ℕ
  self_rng : ℕ
  np_global : ℕ
  first_time : Bool
deriving DecidableEq

/-- The constructor fragment relevant here (dataset.py lines 41-74):
`self.rng = np.random.default_rng(seed)`, `self._length = ceil(...)`,
`self.first_time = True`; bucket content / batch order start empty. -/
def init_DS (ratios imgR : List ℚ) (B seed : ℕ) : DS :=
  { bucketRatios := ratios
    imgRatios := imgR
    batch_size := B
    length_field := reported_length imgR.length B
    bucket_content := []
    to_ratio := []
    batch_idxs := []
    py_random := 0
    self_rng := seed
    np_global := 0
    first_time := true }

/-- `dataset.assign_buckets()` as a state update on `DS`. -/
def DS.assignBuckets (ds : DS) : Except AssignErr DS :=
  match assign_buckets ds.bucketRatios ds.imgRatios ds.batch_size with
  | .error e => .error e
  | .ok st => .ok { ds with bucket_content := st.bucket_content, to_ratio := st.to_ratio }

/-- `dataset.assign_batches()` as a state update on `DS` (advancing the two
numpy RNG states it draws from). -/
def DS.assignBatches (sh : ℕ → List ℕ → List ℕ)
    (shG : ℕ → List (List ℕ) → List (List ℕ)) (ds : DS) : Except AssignErr DS :=
  match assign_batches ds.batch_size sh shG ds.self_rng ds.np_global ds.bucket_content with
  | .error e => .error e
  | .ok (bs, s1, g1) => .ok { ds with batch_idxs := bs, self_rng := s1, np_global := g1 }

/-- `worker_init_fn` (dataset.py lines 171-179): `random.seed(worker_info.seed)`
(which writes only the stdlib `random` state), then `assign_buckets()`,
`assign_batches()`, and on the first run `put_most_oom_like_batch_first()`. -/
def worker_init_fn (sh : ℕ → List ℕ → List ℕ)
    (shG : ℕ → List (List ℕ) → List (List ℕ)) (seed : ℕ) (ds : DS) :
    Except AssignErr DS :=
  let ds0 := { ds with py_random := seed }
  match ds0.assignBuckets with
  | .error e => .error e
  | .ok ds1 =>
    match ds1.assignBatches sh shG with
    | .error e => .error e
    | .ok ds2 =>
      if ds2.first_time then
        match put_most_oom_like_batch_first ds2.bucket_content ds2.batch_idxs with
        | none => .error .stopIteration
        | some bs => .ok { ds2 with batch_idxs := bs, first_time := false }
      else .ok ds2

/-- Modelled from the spec: a stand-in for the external numpy PRNG's
list shuffle — a deterministic, state-dependent permutation (a rotation by
the state), since numpy's Mersenne/PCG internals are outside this
repository.  The spec only requires that a shuffle at a fixed state is a
fixed permutation and that each call advances the state. -/
def rot_shuffle (s : ℕ) (l : List ℕ) : List ℕ :=
  l.drop (s % (max 1 l.length)) ++ l.take (s % (max 1 l.length))

/-- Modelled from the spec: the same stand-in shuffle for the global
batch-order shuffle (`np.random.shuffle`), acting on a list of batches. -/
def rot_shuffle_batches (s : ℕ) (l : List (List ℕ)) : List (List ℕ) :=
  l.drop (s % (max 1 l.length)) ++ l.take (s % (max 1 l.length))

end Dataset

namespace Dataset

/-! ### Basic facts about the helpers -/

theorem isqrtAux_spec (fuel : ℕ) : ∀ n : ℕ, n ≤ fuel →
    isqrtAux fuel n * isqrtAux fuel n ≤ n ∧ n < (isqrtAux fuel n + 1) * (isqrtAux fuel n + 1) := by
  induction fuel with
  | zero => intro n hn; interval_cases n; simp [isqrtAux]
  | succ fuel ih =>
    intro n hn
    by_cases h0 : n = 0
    · subst h0; simp [isqrtAux]
    by_cases h4 : n < 4
    · unfold isqrtAux; rw [if_neg h0, if_pos h4]; omega
    have hrec : n / 4 ≤ fuel := by omega
    have ihq := ih (n / 4) hrec
    set a := isqrtAux fuel (n / 4) with ha
    unfold isqrtAux
    rw [if_neg h0, if_neg (by omega)]
    simp only [← ha]
    have hsq : 2 * a * (2 * a) = 4 * (a * a) := by ring
    have hsq2 : (2 * a + 1 + 1) * (2 * a + 1 + 1) = 4 * ((a + 1) * (a + 1)) := by ring
    by_cases hle : (2 * a + 1) * (2 * a + 1) ≤ n
    · rw [if_pos hle]; constructor
      · exact hle
      · have := ihq.2; omega
    · rw [if_neg hle]; constructor
      · have := ihq.1; omega
      · omega

theorem isqrt_spec (n : ℕ) : isqrt n * isqrt n ≤ n ∧ n < (isqrt n + 1) * (isqrt n + 1) :=
  isqrtAux_spec n n le_rfl

/-- The fuel-based square root agrees with Mathlib's `Nat.sqrt`. -/
theorem isqrt_eq_sqrt (n : ℕ) : isqrt n = Nat.sqrt n := by
  have h := isqrt_spec n
  have h1 : isqrt n ≤ Nat.sqrt n := Nat.le_sqrt.mpr h.1
  have h2 : Nat.sqrt n < isqrt n + 1 := Nat.sqrt_lt.mpr h.2
  omega

theorem getD_set_eq_if {α : Type} (l : List α) (i j : ℕ) (a d : α) :
    (l.set i a).getD j d = if i = j ∧ j < l.length then a else l.getD j d := by
  rcases Nat.lt_or_ge j l.length with hj | hj
  · by_cases hij : i = j
    · subst hij
      simp [List.getD_eq_getElem?_getD, List.getElem?_set_self, hj]
    · simp [List.getD_eq_getElem?_getD, List.getElem?_set_ne hij, hij]
  · have hj' : ¬ j < l.length := by omega
    have : (l.set i a).length = l.length := by simp
    simp [List.getD_eq_getElem?_getD, List.getElem?_eq_none_iff.mpr, hj', this]
    rw [List.getElem?_eq_none_iff.mpr (by omega), List.getElem?_eq_none_iff.mpr (by simpa [this] using hj)]

/-! ### Facts about `npSplit` -/

theorem npSplit_flatten (k s : ℕ) : ∀ l : List ℕ, l.length = k * s →
    (npSplit k s l).flatten = l := by
  induction k with
  | zero =>
    intro l hl
    have : l = [] := List.length_eq_zero.mp (by omega)
    simp [npSplit, this]
  | succ k ih =>
    intro l hl
    simp only [npSplit, List.flatten_cons]
    rw [ih (l.drop s) (by simp [hl, Nat.succ_mul])]
    exact List.take_append_drop s l

theorem npSplit_mem_length (k s : ℕ) : ∀ l : List ℕ, l.length = k * s →
    ∀ c ∈ npSplit k s l, c.length = s := by
  induction k with
  | zero => intro l hl c hc; simp [npSplit] at hc
  | succ k ih =>
    intro l hl c hc
    simp only [npSplit, List.mem_cons] at hc
    rcases hc with rfl | hc
    · rw [List.length_take, hl, Nat.succ_mul]; omega
    · exact ih (l.drop s) (by simp [hl, Nat.succ_mul]) c hc

theorem mem_of_mem_npSplit (s : ℕ) {x : ℕ} : ∀ (k : ℕ) (l : List ℕ) (c : List ℕ),
    c ∈ npSplit k s l → x ∈ c → x ∈ l := by
  intro k
  induction k with
  | zero => intro l c hc; simp [npSplit] at hc
  | succ k ih =>
    intro l c hc hx
    simp only [npSplit, List.mem_cons] at hc
    rcases hc with rfl | hc
    · exact List.mem_of_mem_take hx
    · exact List.mem_of_mem_drop (ih (l.drop s) c hc hx)

theorem npSplit_pairwise {R : ℕ → ℕ → Prop} (s : ℕ) : ∀ (k : ℕ) (l : List ℕ),
    l.Pairwise R →
    (npSplit k s l).Pairwise (fun c c' => ∀ x ∈ c, ∀ y ∈ c', R x y) := by
  intro k
  induction k with
  | zero => intro l _; simp [npSplit]
  | succ k ih =>
    intro l hl
    simp only [npSplit, List.pairwise_cons]
    refine ⟨?_, ih (l.drop s) (hl.sublist (List.drop_sublist s l))⟩
    intro c hc x hx y hy
    have hin : y ∈ l.drop s := mem_of_mem_npSplit s k (l.drop s) c hc hy
    have := (List.pairwise_append.mp (by rw [List.take_append_drop s l]; exact hl)).2.2
    exact this x hx y hin

end Dataset

namespace Dataset

/-! ### Shape of the landscape / portrait chunk lists -/

theorem landscape_chunks_eq (B : ℕ) (L : List ℕ) (hB : 0 < B) (hrem : L.length % B ≠ 0)
    (hBn : B ≤ L.length) :
    landscape_chunks B L =
      npSplit (L.length / B) B (L.take (L.length - L.length % B))
        ++ [L.drop (L.length - L.length % B)] := by
  have hq : 0 < L.length / B := Nat.div_pos hBn hB
  have h2 : L.length - L.length % B = B * (L.length / B) := by
    have := Nat.div_add_mod L.length B; omega
  have h1 : (L.take (L.length - L.length % B)).length = B * (L.length / B) := by
    rw [List.length_take]; omega
  have h3 : B * (L.length / B) / (L.length / B) = B := Nat.mul_div_cancel _ hq
  simp only [landscape_chunks, if_neg hrem, if_pos hBn, h1, h3]

theorem landscape_chunks_eq_small (B : ℕ) (L : List ℕ) (hBn : L.length < B) (hne : L ≠ []) :
    landscape_chunks B L = [L] := by
  have hlen : 0 < L.length := List.length_pos.mpr hne
  have hrem : L.length % B = L.length := Nat.mod_eq_of_lt hBn
  have hne' : L.length % B ≠ 0 := by omega
  simp only [landscape_chunks, if_neg hne', if_neg (by omega : ¬ B ≤ L.length), hrem]
  simpa using hne

theorem landscape_chunks_nil (B : ℕ) : landscape_chunks B [] = [] := by
  have h0 : (0 : ℕ) / B = 0 := Nat.zero_div B
  simp [landscape_chunks, h0, npSplit]

theorem landscape_chunks_eq_crash (B : ℕ) (L : List ℕ) (hrem : L.length % B = 0)
    (hBn : B ≤ L.length) :
    landscape_chunks B L = npSplit (L.length / B) 0 [] := by
  simp only [landscape_chunks, if_pos hrem, if_pos hBn]
  simp

theorem portrait_chunks_eq (B : ℕ) (P : List ℕ) (hB : 0 < B) (hBn : B ≤ P.length) :
    portrait_chunks B P =
      (npSplit (P.length / B) B (P.drop (P.length % B))).reverse
        ++ (if P.length % B = 0 then [] else [P.take (P.length % B)]) := by
  have hq : 0 < P.length / B := Nat.div_pos hBn hB
  have h2 : P.length - P.length % B = B * (P.length / B) := by
    have := Nat.div_add_mod P.length B; omega
  have h3 : B * (P.length / B) / (P.length / B) = B := Nat.mul_div_cancel _ hq
  simp only [portrait_chunks, if_pos hBn, h2, h3]

theorem portrait_chunks_eq_small (B : ℕ) (P : List ℕ) (hBn : P.length < B) (hne : P ≠ []) :
    portrait_chunks B P = [P] := by
  have hlen : 0 < P.length := List.length_pos.mpr hne
  have hrem : P.length % B = P.length := Nat.mod_eq_of_lt hBn
  have hne' : P.length % B ≠ 0 := by omega
  simp only [portrait_chunks, if_neg (by omega : ¬ B ≤ P.length), if_neg hne', hrem]
  simpa using hne

theorem portrait_chunks_nil (B : ℕ) : portrait_chunks B [] = [] := by
  have h0 : (0 : ℕ) / B = 0 := Nat.zero_div B
  simp [portrait_chunks, h0, npSplit]

/-! ### Order properties of `lex_le` -/

instance : IsTrans (ℕ × ℕ) lex_le :=
  ⟨by intro a b c hab hbc; unfold lex_le at hab hbc ⊢; omega⟩

instance : IsTotal (ℕ × ℕ) lex_le :=
  ⟨by intro a b; unfold lex_le; omega⟩

end Dataset

namespace Dataset

/-! ### Claims C1, C3, C4, C5 -/

/-- C1: the claim "after one run of assign_buckets every item index appears in
exactly one bucket ... (in particular when the number of landscape-ratio items
is a positive exact multiple of the batch size)" fails on the code: with two
landscape items (ratio 1/2 each) and batch size 2, `landscape_idxs[:-reminder]`
is the *empty* slice (`reminder == 0`), `np.split` yields one empty chunk, and
`idx_chunk[-1]` raises `IndexError` — no item is assigned at all.  The portrait
pass uses the correct slice `portrait_idxs[reminder:]`, so the spec is the
intent and the landscape slice is the slip. -/
theorem c1_exact_multiple_crashes :
    assign_buckets (bucket_ratios ⟨4096, 1, 10, 1⟩) [ratio_of 1 2, ratio_of 1 2] 2 =
      .error .emptyChunk := by decide

/-- C3 counterexample: the configuration (targetArea 4096, minSize 1,
maxSize 10, step 1) is accepted at construction, yet the bucket table sorted
by python's `sorted` (lexicographic on `(w, h)`) is *not* non-decreasing in
ratio: it contains `(10, 1), (10, 2), ...` whose ratios run 10, 5, ...
downwards (several widths are height-clamped to maxSize = 10). -/
theorem c3_counterexample :
    (generate_buckets ⟨4096, 1, 10, 1⟩).isOk = true ∧
      ¬ ((bucket_ratios ⟨4096, 1, 10, 1⟩).Sorted (· ≤ ·)) := by decide

/-- C3 amended: the bucket table produced by `generate_buckets` is sorted in
ascending lexicographic order of `(width, height)` — python's tuple order —
for every configuration; the width/height *ratio* along that order is not
guaranteed monotone (it decreases inside a group of entries sharing a width,
which arises whenever several widths are height-clamped). -/
theorem c3_amended_lex_sorted (c : Cfg) : (buckets_sizes c).Sorted lex_le :=
  List.sorted_insertionSort lex_le _

/-- C4 counterexample: with step = 32 and targetArea = 1024, targetArea *is*
divisible by step² = 1024, yet construction fails: the code's assert checks
the literal `% 4096` (64²), not `% step²`. -/
theorem c4_counterexample :
    1024 % (32 * 32) = 0 ∧ (generate_buckets ⟨1024, 512, 2048, 32⟩).isOk = false := by
  decide

/-- C4 amended: construction succeeds iff targetArea is divisible by 4096 =
64², *regardless of the configured step* (the assert hard-codes 64): for
every configuration with a nonzero step, `generate_buckets` is `.ok` exactly
when `target_area % 4096 = 0`. -/
theorem c4_amended_check (c : Cfg) (hd : 0 < c.divisible) :
    (generate_buckets c).isOk = true ↔ c.target_area % 4096 = 0 := by
  unfold generate_buckets
  by_cases h : c.target_area % 4096 = 0
  · simp [h, Except.isOk, Except.toBool, Nat.pos_iff_ne_zero.mp hd]
  · simp [h, Except.isOk, Except.toBool]

/-- C4 amended, witness at the source's default configuration. -/
theorem c4_amended_check_witness :
    (generate_buckets ⟨1048576, 512, 2048, 64⟩).isOk = true ↔ 1048576 % 4096 = 0 :=
  c4_amended_check ⟨1048576, 512, 2048, 64⟩ (by decide)

/-- C5 counterexample: three landscape items, batch size 2: the chunk list is
`[[0, 1], [2]]` — the short remainder chunk `[2]` is processed *last*, not
first as claimed. -/
theorem c5_counterexample :
    landscape_chunks 2 [0, 1, 2] = [[0, 1], [2]] ∧
      (landscape_chunks 2 [0, 1, 2]).head? ≠ some ([0, 1, 2].drop 2) := by decide

/-- C5 amended: in the landscape pass, when the landscape count is not a
multiple of batchSize, the chunking yields full-sized groups plus one short
remainder group, and the remainder group (taken from the largest-ratio end)
is processed *last* in chunk order: it is the last chunk, its length is the
remainder, every other chunk has length batchSize, and the chunks
concatenate back to the landscape list. -/
theorem c5_amended_remainder_last (B : ℕ) (L : List ℕ) (hB : 0 < B)
    (hrem : L.length % B ≠ 0) :
    (landscape_chunks B L).getLast? = some (L.drop (L.length - L.length % B)) ∧
    (L.drop (L.length - L.length % B)).length = L.length % B ∧
    (∀ c ∈ (landscape_chunks B L).dropLast, c.length = B) ∧
    (landscape_chunks B L).flatten = L := by
  have hmod : L.length % B < B := Nat.mod_lt _ hB
  have hmodle : L.length % B ≤ L.length := Nat.mod_le _ _
  have hlen2 : (L.drop (L.length - L.length % B)).length = L.length % B := by
    rw [List.length_drop]; omega
  rcases Nat.lt_or_ge L.length B with hsm | hge
  · have hne : L ≠ [] := by
      intro h; subst h; simp at hrem
    have hz : L.length - L.length % B = 0 := by
      rw [Nat.mod_eq_of_lt hsm]; omega
    rw [landscape_chunks_eq_small B L hsm hne]
    exact ⟨by simp [hz], hlen2, by simp, by simp [hz]⟩
  · rw [landscape_chunks_eq B L hB hrem hge]
    have h2 : L.length - L.length % B = B * (L.length / B) := by
      have := Nat.div_add_mod L.length B; omega
    have htl : (L.take (L.length - L.length % B)).length = L.length / B * B := by
      rw [List.length_take, min_eq_left (by omega), h2, Nat.mul_comm]
    refine ⟨List.getLast?_concat _, hlen2, ?_, ?_⟩
    · rw [List.dropLast_concat]
      exact npSplit_mem_length (L.length / B) B _ htl
    · rw [List.flatten_append, npSplit_flatten (L.length / B) B _ htl]
      simp [List.take_append_drop]

/-- C5 amended, witness: batch size 2 on `[0, 1, 2]` puts the remainder `[2]`
last. -/
theorem c5_amended_remainder_last_witness :
    (landscape_chunks 2 [0, 1, 2]).getLast? = some [2] := by
  have h := c5_amended_remainder_last 2 [0, 1, 2] (by decide) (by decide)
  simpa using h.1

end Dataset

namespace Dataset

/-! ### Claim C2: the reseed does not make reassignment reproducible -/

/-- The dataset state for the C2 run: three landscape items of ratio 1/2
(batch size 2), constructed with seed 42, after the first epoch
(`first_time = False`). -/
def c2_ds : DS :=
  { init_DS (bucket_ratios ⟨4096, 1, 10, 1⟩)
      [ratio_of 1 2, ratio_of 1 2, ratio_of 1 2] 2 42 with
    first_time := false }

/-- First invocation of the worker hook with worker seed 7. -/
def c2_run1 : Except AssignErr DS := worker_init_fn rot_shuffle rot_shuffle_batches 7 c2_ds

/-- The state after the first invocation. -/
def c2_ds1 : DS := c2_run1.toOption.getD c2_ds

/-- Second invocation, same worker seed 7. -/
def c2_run2 : Except AssignErr DS := worker_init_fn rot_shuffle rot_shuffle_batches 7 c2_ds1

/-- The state after the second invocation. -/
def c2_ds2 : DS := c2_run2.toOption.getD c2_ds

/-- C2: the claim fails on the code.  Two runs of the reassignment sequence
with the *same* worker seed produce identical bucket contents and identical
per-item assigned ratios (assignment itself is deterministic), but a
*different* batch order: `random.seed(worker_info.seed)` writes only the
python-stdlib `random` state, which nothing in `assign_batches` reads — the
shuffles draw from the dataset's construction-seeded `np.random.default_rng`
generator and from numpy's global RNG, whose states simply advance from one
run to the next. -/
theorem c2_reseed_not_reproducible :
    c2_run1 = .ok c2_ds1 ∧ c2_run2 = .ok c2_ds2 ∧
    c2_ds1.bucket_content = c2_ds2.bucket_content ∧
    c2_ds1.to_ratio = c2_ds2.to_ratio ∧
    c2_ds1.py_random = 7 ∧ c2_ds2.py_random = 7 ∧
    c2_ds1.batch_idxs ≠ c2_ds2.batch_idxs := by decide

end Dataset

namespace Dataset

/-! ### Cursor lemmas -/

theorem advance_up_fuel_ok_bounds (ratios : List ℚ) (r : ℚ) :
    ∀ (fuel b b' : ℕ), advance_up_fuel ratios r fuel b = .ok b' →
      b ≤ b' ∧ b' < ratios.length := by
  intro fuel
  induction fuel with
  | zero => intro b b' h; exact Except.noConfusion h
  | succ fuel ih =>
    intro b b' h
    simp only [advance_up_fuel] at h
    by_cases hb : b < ratios.length
    · rw [dif_pos hb] at h
      by_cases hr : ratios[b] < r
      · rw [if_pos hr] at h
        have := ih (b + 1) b' h
        omega
      · rw [if_neg hr] at h
        injection h with h
        subst h
        exact ⟨le_rfl, hb⟩
    · rw [dif_neg hb] at h; exact Except.noConfusion h

theorem advance_up_ok_bounds {ratios : List ℚ} {r : ℚ} {b b' : ℕ}
    (h : advance_up ratios r b = .ok b') : b ≤ b' ∧ b' < ratios.length :=
  advance_up_fuel_ok_bounds ratios r _ b b' h

theorem advance_up_fuel_ok_of_le (ratios : List ℚ) (r : ℚ) (sq : ℕ)
    (hsq : sq < ratios.length) (h1 : ratios[sq] = 1) (hr : r ≤ 1) :
    ∀ (fuel b : ℕ), b ≤ sq → sq + 1 - b ≤ fuel →
      ∃ b', advance_up_fuel ratios r fuel b = .ok b' ∧ b' ≤ sq := by
  intro fuel
  induction fuel with
  | zero => intro b hb hf; omega
  | succ fuel ih =>
    intro b hb hf
    have hblt : b < ratios.length := by omega
    simp only [advance_up_fuel, dif_pos hblt]
    by_cases hrb : ratios[b] < r
    · have hbne : b ≠ sq := by
        intro hEq
        subst hEq
        rw [h1] at hrb
        exact absurd hrb (not_lt.mpr hr)
      obtain ⟨b', hb', hle⟩ := ih (b + 1) (by omega) (by omega)
      exact ⟨b', by rw [if_pos hrb]; exact hb', hle⟩
    · exact ⟨b, by rw [if_neg hrb], hb⟩

theorem advance_up_ok_of_le {ratios : List ℚ} {r : ℚ} {sq b : ℕ}
    (hsq : sq < ratios.length) (h1 : ratios[sq] = 1) (hr : r ≤ 1) (hb : b ≤ sq) :
    ∃ b', advance_up ratios r b = .ok b' ∧ b' ≤ sq :=
  advance_up_fuel_ok_of_le ratios r sq hsq h1 hr (ratios.length + 1) b hb (by omega)

theorem advance_down_fuel_ok_bounds (ratios : List ℚ) (r : ℚ) :
    ∀ (fuel b b' : ℕ), advance_down_fuel ratios r fuel b = .ok b' →
      b' ≤ b ∧ b' < ratios.length := by
  intro fuel
  induction fuel with
  | zero => intro b b' h; exact Except.noConfusion h
  | succ fuel ih =>
    intro b b' h
    simp only [advance_down_fuel] at h
    by_cases hb : b < ratios.length
    · rw [dif_pos hb] at h
      by_cases hr : r < ratios[b]
      · rw [if_pos hr] at h
        by_cases hb0 : b = 0
        · rw [if_pos hb0] at h; exact Except.noConfusion h
        · rw [if_neg hb0] at h
          have := ih (b - 1) b' h
          omega
      · rw [if_neg hr] at h
        injection h with h
        subst h
        exact ⟨le_rfl, hb⟩
    · rw [dif_neg hb] at h; exact Except.noConfusion h

theorem advance_down_ok_bounds {ratios : List ℚ} {r : ℚ} {b b' : ℕ}
    (h : advance_down ratios r b = .ok b') : b' ≤ b ∧ b' < ratios.length :=
  advance_down_fuel_ok_bounds ratios r _ b b' h

theorem advance_down_fuel_ok_of_ge (ratios : List ℚ) (r : ℚ) (sq : ℕ)
    (hsq : sq < ratios.length) (h1 : ratios[sq] = 1) (hr : 1 < r) :
    ∀ (fuel b : ℕ), sq ≤ b → b < ratios.length → b + 1 - sq ≤ fuel →
      ∃ b', advance_down_fuel ratios r fuel b = .ok b' ∧ sq ≤ b' := by
  intro fuel
  induction fuel with
  | zero => intro b hb hblt hf; omega
  | succ fuel ih =>
    intro b hb hblt hf
    simp only [advance_down_fuel, dif_pos hblt]
    by_cases hrb : r < ratios[b]
    · have hbne : b ≠ sq := by
        intro hEq
        subst hEq
        rw [h1] at hrb
        exact absurd (hr.trans hrb) (lt_irrefl 1)
      have hb0 : b ≠ 0 := by omega
      obtain ⟨b', hb', hle⟩ := ih (b - 1) (by omega) (by omega) (by omega)
      exact ⟨b', by rw [if_pos hrb, if_neg hb0]; exact hb', hle⟩
    · exact ⟨b, by rw [if_neg hrb], hb⟩

theorem advance_down_ok_of_ge {ratios : List ℚ} {r : ℚ} {sq b : ℕ}
    (hsq : sq < ratios.length) (h1 : ratios[sq] = 1) (hr : 1 < r)
    (hb : sq ≤ b) (hblt : b < ratios.length) :
    ∃ b', advance_down ratios r b = .ok b' ∧ sq ≤ b' :=
  advance_down_fuel_ok_of_ge ratios r sq hsq h1 hr (b + 1) b hb hblt (by omega)

end Dataset

namespace Dataset

/-! ### Characterization of the assignment folds -/

theorem process_up_ok_char (ratios imgR : List ℚ) :
    ∀ (chunks : List (List ℕ)) (b : ℕ) (st st' : AssignResult),
      process_up ratios imgR chunks b st = .ok st' →
      st.bucket_content.length = ratios.length →
      ∃ stops : List ℕ,
        stops.length = chunks.length ∧
        st'.bucket_content.length = ratios.length ∧
        (∀ s ∈ stops, b ≤ s ∧ s < ratios.length) ∧
        stops.Pairwise (· ≤ ·) ∧
        (∀ bk x, x ∈ st'.bucket_content.getD bk [] ↔
          x ∈ st.bucket_content.getD bk [] ∨
            ∃ p ∈ chunks.zip stops, x ∈ p.1 ∧ p.2 = bk) := by
  intro chunks
  induction chunks with
  | nil =>
    intro b st st' h hlen
    simp only [process_up] at h
    injection h with h
    subst h
    exact ⟨[], rfl, hlen, by simp, by simp, by simp⟩
  | cons c rest ih =>
    intro b st st' h hlen
    cases hlast : c.getLast? with
    | none =>
      simp only [process_up, hlast] at h
      exact Except.noConfusion h
    | some idx =>
      cases hadv : advance_up ratios (imgR.getD idx 0) b with
      | error e =>
        simp only [process_up, hlast, hadv] at h
        exact Except.noConfusion h
      | ok b1 =>
        simp only [process_up, hlast, hadv] at h
        obtain ⟨hb1, hb1lt⟩ := advance_up_ok_bounds hadv
        have hlen1 : (st.bucket_content.set b1
            (st.bucket_content.getD b1 [] ++ c)).length = ratios.length := by
          simp [hlen]
        obtain ⟨stops, hslen, hlen', hbd, hpw, hmem⟩ := ih b1 _ st' h hlen1
        refine ⟨b1 :: stops, by simp [hslen], hlen', ?_, ?_, ?_⟩
        · intro s hs
          rcases List.mem_cons.mp hs with rfl | hs
          · exact ⟨hb1, hb1lt⟩
          · have := hbd s hs; omega
        · exact List.pairwise_cons.mpr ⟨fun s hs => (hbd s hs).1, hpw⟩
        · intro bk x
          rw [hmem bk x]
          have hgetD : (st.bucket_content.set b1
              (st.bucket_content.getD b1 [] ++ c)).getD bk [] =
              if b1 = bk then st.bucket_content.getD bk [] ++ c
              else st.bucket_content.getD bk [] := by
            rw [getD_set_eq_if, hlen]
            by_cases hc : b1 = bk
            · subst hc; rw [if_pos ⟨rfl, hb1lt⟩, if_pos rfl]
            · rw [if_neg (by tauto), if_neg hc]
          rw [hgetD]
          by_cases hc : b1 = bk
          · subst hc
            rw [if_pos rfl]
            simp only [List.zip_cons_cons, List.mem_cons, List.mem_append]
            constructor
            · rintro (h | h)
              · rcases h with h | h
                · exact Or.inl h
                · exact Or.inr ⟨(c, b1), Or.inl rfl, h, rfl⟩
              · rcases h with ⟨p, hp, hx, hpb⟩
                exact Or.inr ⟨p, Or.inr hp, hx, hpb⟩
            · rintro (h | ⟨p, hp | hp, hx, hpb⟩)
              · exact Or.inl (Or.inl h)
              · subst hp; exact Or.inl (Or.inr hx)
              · exact Or.inr ⟨p, hp, hx, hpb⟩
          · rw [if_neg hc]
            simp only [List.zip_cons_cons, List.mem_cons]
            constructor
            · rintro (h | ⟨p, hp, hx, hpb⟩)
              · exact Or.inl h
              · exact Or.inr ⟨p, Or.inr hp, hx, hpb⟩
            · rintro (h | ⟨p, hp | hp, hx, hpb⟩)
              · exact Or.inl h
              · subst hp; exact absurd hpb hc
              · exact Or.inr ⟨p, hp, hx, hpb⟩

theorem process_down_ok_char (ratios imgR : List ℚ) :
    ∀ (chunks : List (List ℕ)) (b : ℕ) (st st' : AssignResult),
      process_down ratios imgR chunks b st = .ok st' →
      st.bucket_content.length = ratios.length →
      ∃ stops : List ℕ,
        stops.length = chunks.length ∧
        st'.bucket_content.length = ratios.length ∧
        (∀ s ∈ stops, s ≤ b ∧ s < ratios.length) ∧
        stops.Pairwise (fun a b => b ≤ a) ∧
        (∀ bk x, x ∈ st'.bucket_content.getD bk [] ↔
          x ∈ st.bucket_content.getD bk [] ∨
            ∃ p ∈ chunks.zip stops, x ∈ p.1 ∧ p.2 = bk) := by
  intro chunks
  induction chunks with
  | nil =>
    intro b st st' h hlen
    simp only [process_down] at h
    injection h with h
    subst h
    exact ⟨[], rfl, hlen, by simp, by simp, by simp⟩
  | cons c rest ih =>
    intro b st st' h hlen
    cases hlast : c.head? with
    | none =>
      simp only [process_down, hlast] at h
      exact Except.noConfusion h
    | some idx =>
      cases hadv : advance_down ratios (imgR.getD idx 0) b with
      | error e =>
        simp only [process_down, hlast, hadv] at h
        exact Except.noConfusion h
      | ok b1 =>
        simp only [process_down, hlast, hadv] at h
        obtain ⟨hb1, hb1lt⟩ := advance_down_ok_bounds hadv
        have hlen1 : (st.bucket_content.set b1
            (st.bucket_content.getD b1 [] ++ c)).length = ratios.length := by
          simp [hlen]
        obtain ⟨stops, hslen, hlen', hbd, hpw, hmem⟩ := ih b1 _ st' h hlen1
        refine ⟨b1 :: stops, by simp [hslen], hlen', ?_, ?_, ?_⟩
        · intro s hs
          rcases List.mem_cons.mp hs with rfl | hs
          · exact ⟨hb1, hb1lt⟩
          · have := hbd s hs; omega
        · exact List.pairwise_cons.mpr ⟨fun s hs => (hbd s hs).1, hpw⟩
        · intro bk x
          rw [hmem bk x]
          have hgetD : (st.bucket_content.set b1
              (st.bucket_content.getD b1 [] ++ c)).getD bk [] =
              if b1 = bk then st.bucket_content.getD bk [] ++ c
              else st.bucket_content.getD bk [] := by
            rw [getD_set_eq_if, hlen]
            by_cases hc : b1 = bk
            · subst hc; rw [if_pos ⟨rfl, hb1lt⟩, if_pos rfl]
            · rw [if_neg (by tauto), if_neg hc]
          rw [hgetD]
          by_cases hc : b1 = bk
          · subst hc
            rw [if_pos rfl]
            simp only [List.zip_cons_cons, List.mem_cons, List.mem_append]
            constructor
            · rintro (h | h)
              · rcases h with h | h
                · exact Or.inl h
                · exact Or.inr ⟨(c, b1), Or.inl rfl, h, rfl⟩
              · rcases h with ⟨p, hp, hx, hpb⟩
                exact Or.inr ⟨p, Or.inr hp, hx, hpb⟩
            · rintro (h | ⟨p, hp | hp, hx, hpb⟩)
              · exact Or.inl (Or.inl h)
              · subst hp; exact Or.inl (Or.inr hx)
              · exact Or.inr ⟨p, hp, hx, hpb⟩
          · rw [if_neg hc]
            simp only [List.zip_cons_cons, List.mem_cons]
            constructor
            · rintro (h | ⟨p, hp, hx, hpb⟩)
              · exact Or.inl h
              · exact Or.inr ⟨p, Or.inr hp, hx, hpb⟩
            · rintro (h | ⟨p, hp | hp, hx, hpb⟩)
              · exact Or.inl h
              · subst hp; exact absurd hpb hc
              · exact Or.inr ⟨p, hp, hx, hpb⟩

end Dataset

namespace Dataset

/-! ### Cursor stops bounded by the square bucket -/

theorem process_up_new_mem_le_sq (ratios imgR : List ℚ) (sq : ℕ)
    (hsq : sq < ratios.length) (h1 : ratios[sq] = 1) :
    ∀ (chunks : List (List ℕ)) (b : ℕ) (st st' : AssignResult),
      process_up ratios imgR chunks b st = .ok st' →
      (∀ c ∈ chunks, ∀ i ∈ c, imgR.getD i 0 ≤ 1) → b ≤ sq →
      ∀ bk x, x ∈ st'.bucket_content.getD bk [] →
        x ∈ st.bucket_content.getD bk [] ∨ bk ≤ sq := by
  intro chunks
  induction chunks with
  | nil =>
    intro b st st' h _ _ bk x hx
    simp only [process_up] at h
    injection h with h
    subst h
    exact Or.inl hx
  | cons c rest ih =>
    intro b st st' h hdec hb bk x hx
    cases hlast : c.getLast? with
    | none =>
      simp only [process_up, hlast] at h
      exact Except.noConfusion h
    | some idx =>
      have hidx : idx ∈ c := List.mem_of_mem_getLast? hlast
      have hr : imgR.getD idx 0 ≤ 1 := hdec c (List.mem_cons_self c rest) idx hidx
      obtain ⟨b1, hok, hble⟩ := advance_up_ok_of_le hsq h1 hr hb
      simp only [process_up, hlast, hok] at h
      have := ih b1 _ st' h (fun c' hc' => hdec c' (List.mem_cons_of_mem c hc')) hble bk x hx
      rcases this with hmem | hle
      · rw [getD_set_eq_if] at hmem
        by_cases hcond : b1 = bk ∧ bk < st.bucket_content.length
        · rw [if_pos hcond] at hmem
          exact Or.inr (hcond.1 ▸ hble)
        · rw [if_neg hcond] at hmem
          exact Or.inl hmem
      · exact Or.inr hle

theorem process_down_new_mem_ge_sq (ratios imgR : List ℚ) (sq : ℕ)
    (hsq : sq < ratios.length) (h1 : ratios[sq] = 1) :
    ∀ (chunks : List (List ℕ)) (b : ℕ) (st st' : AssignResult),
      process_down ratios imgR chunks b st = .ok st' →
      (∀ c ∈ chunks, ∀ i ∈ c, 1 < imgR.getD i 0) → sq ≤ b → b < ratios.length →
      ∀ bk x, x ∈ st'.bucket_content.getD bk [] →
        x ∈ st.bucket_content.getD bk [] ∨ sq ≤ bk := by
  intro chunks
  induction chunks with
  | nil =>
    intro b st st' h _ _ _ bk x hx
    simp only [process_down] at h
    injection h with h
    subst h
    exact Or.inl hx
  | cons c rest ih =>
    intro b st st' h hdec hb hblt bk x hx
    cases hlast : c.head? with
    | none =>
      simp only [process_down, hlast] at h
      exact Except.noConfusion h
    | some idx =>
      have hidx : idx ∈ c := List.mem_of_mem_head? hlast
      have hr : 1 < imgR.getD idx 0 := hdec c (List.mem_cons_self c rest) idx hidx
      obtain ⟨b1, hok, hbge⟩ := advance_down_ok_of_ge hsq h1 hr hb hblt
      have hb1lt : b1 < ratios.length := (advance_down_ok_bounds hok).2
      simp only [process_down, hlast, hok] at h
      have := ih b1 _ st' h (fun c' hc' => hdec c' (List.mem_cons_of_mem c hc')) hbge hb1lt bk x hx
      rcases this with hmem | hle
      · rw [getD_set_eq_if] at hmem
        by_cases hcond : b1 = bk ∧ bk < st.bucket_content.length
        · rw [if_pos hcond] at hmem
          exact Or.inr (hcond.1 ▸ hbge)
        · rw [if_neg hcond] at hmem
          exact Or.inl hmem
      · exact Or.inr hle

/-! ### The out-of-range branch is unreachable given a ratio-1 bucket -/

theorem process_up_ne_oor (ratios imgR : List ℚ) (sq : ℕ)
    (hsq : sq < ratios.length) (h1 : ratios[sq] = 1) :
    ∀ (chunks : List (List ℕ)) (b : ℕ) (st : AssignResult),
      (∀ c ∈ chunks, ∀ i ∈ c, imgR.getD i 0 ≤ 1) → b ≤ sq →
      process_up ratios imgR chunks b st ≠ .error .outOfRange := by
  intro chunks
  induction chunks with
  | nil => intro b st _ _ h; exact Except.noConfusion h
  | cons c rest ih =>
    intro b st hdec hb
    cases hlast : c.getLast? with
    | none =>
      simp only [process_up, hlast]
      intro h
      have := (Except.error.injEq _ _).mp h
      exact AssignErr.noConfusion this
    | some idx =>
      have hidx : idx ∈ c := List.mem_of_mem_getLast? hlast
      have hr : imgR.getD idx 0 ≤ 1 := hdec c (List.mem_cons_self c rest) idx hidx
      obtain ⟨b1, hok, hble⟩ := advance_up_ok_of_le hsq h1 hr hb
      simp only [process_up, hlast, hok]
      exact ih b1 _ (fun c' hc' => hdec c' (List.mem_cons_of_mem c hc')) hble

theorem process_down_ne_oor (ratios imgR : List ℚ) (sq : ℕ)
    (hsq : sq < ratios.length) (h1 : ratios[sq] = 1) :
    ∀ (chunks : List (List ℕ)) (b : ℕ) (st : AssignResult),
      (∀ c ∈ chunks, ∀ i ∈ c, 1 < imgR.getD i 0) → sq ≤ b → b < ratios.length →
      process_down ratios imgR chunks b st ≠ .error .outOfRange := by
  intro chunks
  induction chunks with
  | nil => intro b st _ _ _ h; exact Except.noConfusion h
  | cons c rest ih =>
    intro b st hdec hb hblt
    cases hlast : c.head? with
    | none =>
      simp only [process_down, hlast]
      intro h
      have := (Except.error.injEq _ _).mp h
      exact AssignErr.noConfusion this
    | some idx =>
      have hidx : idx ∈ c := List.mem_of_mem_head? hlast
      have hr : 1 < imgR.getD idx 0 := hdec c (List.mem_cons_self c rest) idx hidx
      obtain ⟨b1, hok, hbge⟩ := advance_down_ok_of_ge hsq h1 hr hb hblt
      have hb1lt : b1 < ratios.length := (advance_down_ok_bounds hok).2
      simp only [process_down, hlast, hok]
      exact ih b1 _ (fun c' hc' => hdec c' (List.mem_cons_of_mem c hc')) hbge hb1lt

end Dataset

namespace Dataset

/-! ### The square bucket -/

theorem square_mem_buckets_sizes (c : Cfg) :
    (square_side c, square_side c) ∈ buckets_sizes c := by
  unfold buckets_sizes
  refine (List.perm_insertionSort lex_le _).mem_iff.mpr ?_
  rw [List.mem_dedup]
  simp

theorem square_side_pos (c : Cfg) (hd : 0 < c.divisible)
    (hle : c.divisible ≤ isqrt c.target_area) : 0 < square_side c :=
  Nat.mul_pos (Nat.div_pos hle hd) hd

theorem ratio_of_self (s : ℕ) (hs : s ≠ 0) : ratio_of s s = 1 := by
  unfold ratio_of
  rw [Rat.mkRat_eq_div]
  exact div_self (by exact_mod_cast hs)

theorem one_mem_bucket_ratios (c : Cfg) (hs : square_side c ≠ 0) :
    (1 : ℚ) ∈ bucket_ratios c := by
  unfold bucket_ratios
  exact List.mem_map.mpr
    ⟨(square_side c, square_side c), square_mem_buckets_sizes c, ratio_of_self _ hs⟩

/-! ### The sorted index lists -/

theorem img_idxs_sorted (imgR : List ℚ) :
    (img_idxs imgR).Sorted (fun i j => imgR.getD i 0 ≤ imgR.getD j 0) :=
  @List.sorted_insertionSort ℕ (fun i j => imgR.getD i 0 ≤ imgR.getD j 0) _
    ⟨fun _ _ => le_total _ _⟩ ⟨fun _ _ _ => le_trans⟩ _

theorem landscape_idxs_sorted (imgR : List ℚ) :
    (landscape_idxs imgR).Sorted (fun i j => imgR.getD i 0 ≤ imgR.getD j 0) :=
  (img_idxs_sorted imgR).sublist (List.filter_sublist _)

theorem portrait_idxs_sorted (imgR : List ℚ) :
    (portrait_idxs imgR).Sorted (fun i j => imgR.getD i 0 ≤ imgR.getD j 0) :=
  (img_idxs_sorted imgR).sublist (List.filter_sublist _)

theorem landscape_idxs_le_one (imgR : List ℚ) :
    ∀ i ∈ landscape_idxs imgR, imgR.getD i 0 ≤ 1 := by
  intro i hi
  have := (List.mem_filter.mp hi).2
  simpa using this

theorem portrait_idxs_gt_one (imgR : List ℚ) :
    ∀ i ∈ portrait_idxs imgR, 1 < imgR.getD i 0 := by
  intro i hi
  have := (List.mem_filter.mp hi).2
  simpa using this

/-! ### Membership and order of the chunk lists -/

theorem mem_of_mem_landscape_chunks {B : ℕ} {L : List ℕ} {c : List ℕ} {x : ℕ}
    (hc : c ∈ landscape_chunks B L) (hx : x ∈ c) : x ∈ L := by
  simp only [landscape_chunks] at hc
  rcases List.mem_append.mp hc with h | h
  · split at h
    · have hmem := mem_of_mem_npSplit _ _ _ c h hx
      split at hmem
      · simp at hmem
      · exact List.mem_of_mem_take hmem
    · simp at h
  · split at h
    · simp at h
    · simp only [List.mem_singleton] at h
      subst h
      exact List.mem_of_mem_drop hx

theorem mem_of_mem_portrait_chunks {B : ℕ} {P : List ℕ} {c : List ℕ} {x : ℕ}
    (hc : c ∈ portrait_chunks B P) (hx : x ∈ c) : x ∈ P := by
  simp only [portrait_chunks] at hc
  rcases List.mem_append.mp hc with h | h
  · split at h
    · rw [List.mem_reverse] at h
      exact List.mem_of_mem_drop (mem_of_mem_npSplit _ _ _ c h hx)
    · simp at h
  · split at h
    · simp at h
    · simp only [List.mem_singleton] at h
      subst h
      exact List.mem_of_mem_take hx

theorem landscape_chunks_pairwise {B : ℕ} {L : List ℕ} {R : ℕ → ℕ → Prop}
    (hL : L.Pairwise R) :
    (landscape_chunks B L).Pairwise (fun c c' => ∀ x ∈ c, ∀ y ∈ c', R x y) := by
  simp only [landscape_chunks]
  rw [List.pairwise_append]
  refine ⟨?_, ?_, ?_⟩
  · split
    · apply npSplit_pairwise
      split
      · exact List.Pairwise.nil
      · exact hL.sublist (List.take_sublist _ _)
    · exact List.Pairwise.nil
  · split
    · exact List.Pairwise.nil
    · simp
  · intro a ha b hb
    split at hb
    · simp at hb
    · simp only [List.mem_singleton] at hb
      subst hb
      intro x hx y hy
      split at ha
      · have hxarr := mem_of_mem_npSplit _ _ _ _ ha hx
        have hsplit := List.pairwise_append.mp
          ((List.take_append_drop (L.length - L.length % B) L).symm ▸ hL)
        exact hsplit.2.2 x hxarr y hy
      · simp at ha

theorem portrait_chunks_pairwise {B : ℕ} {P : List ℕ} {R : ℕ → ℕ → Prop}
    (hP : P.Pairwise R) :
    (portrait_chunks B P).Pairwise (fun c c' => ∀ x ∈ c, ∀ y ∈ c', R y x) := by
  simp only [portrait_chunks]
  rw [List.pairwise_append]
  refine ⟨?_, ?_, ?_⟩
  · split
    · rw [List.pairwise_reverse]
      have := npSplit_pairwise (R := R) ((P.length - P.length % B) / (P.length / B))
        (P.length / B) (P.drop (P.length % B)) (hP.sublist (List.drop_sublist _ _))
      exact this.imp (fun {a b} hab => fun x hx y hy => hab y hy x hx)
    · exact List.Pairwise.nil
  · split
    · exact List.Pairwise.nil
    · simp
  · intro a ha b hb
    split at hb
    · simp at hb
    · simp only [List.mem_singleton] at hb
      subst hb
      intro x hx y hy
      split at ha
      · rw [List.mem_reverse] at ha
        have hxd := mem_of_mem_npSplit _ _ _ _ ha hx
        have hsplit := List.pairwise_append.mp
          ((List.take_append_drop (P.length % B) P).symm ▸ hP)
        exact hsplit.2.2 y hy x hxd
      · simp at ha

end Dataset

namespace Dataset

/-! ### Claim C10 -/

/-- C10 counterexample: the configuration (targetArea 4096, minSize 512,
maxSize 2048, step 128) is accepted at construction (4096 % 4096 = 0), but
`int(np.sqrt(4096)) // 128 * 128 = 0`, so the "square bucket" is `(0, 0)`
and no bucket with ratio exactly 1 exists in the table (the float code would
compute `0/0 = nan`; the exact model yields `0` — either way, not `1`). -/
theorem c10_counterexample :
    (generate_buckets ⟨4096, 512, 2048, 128⟩).isOk = true ∧
      ¬ ((1 : ℚ) ∈ bucket_ratios ⟨4096, 512, 2048, 128⟩) := by decide

/-- C10 amended: for every accepted configuration whose step does not exceed
`isqrt targetArea` (equivalently, whose square side is positive), the table
contains a bucket of ratio exactly 1, and consequently for every item-ratio
list and batch size the bucket cursors in `assign_buckets` never leave the
bucket-ratio array: the out-of-range branch is unreachable (the landscape
cursor stops at or before the ratio-1 bucket, the portrait cursor at or
after it). -/
theorem c10_amended_square_and_in_range (c : Cfg) (hacc : c.target_area % 4096 = 0)
    (hd : 0 < c.divisible) (hds : c.divisible ≤ isqrt c.target_area)
    (imgR : List ℚ) (B : ℕ) :
    (1 : ℚ) ∈ bucket_ratios c ∧
      assign_buckets (bucket_ratios c) imgR B ≠ .error .outOfRange := by
  have hone : (1 : ℚ) ∈ bucket_ratios c :=
    one_mem_bucket_ratios c (Nat.pos_iff_ne_zero.mp (square_side_pos c hd hds))
  refine ⟨hone, ?_⟩
  obtain ⟨sq, hsq, hsq1⟩ := List.mem_iff_getElem.mp hone
  by_cases hB0 : B = 0
  · simp only [assign_buckets, if_pos hB0]
    intro h
    exact AssignErr.noConfusion ((Except.error.injEq _ _).mp h)
  · simp only [assign_buckets, if_neg hB0]
    have hdecL : ∀ ch ∈ landscape_chunks B (landscape_idxs imgR), ∀ i ∈ ch,
        imgR.getD i 0 ≤ 1 := fun ch hch i hi =>
      landscape_idxs_le_one imgR i (mem_of_mem_landscape_chunks hch hi)
    have hdecP : ∀ ch ∈ portrait_chunks B (portrait_idxs imgR), ∀ i ∈ ch,
        1 < imgR.getD i 0 := fun ch hch i hi =>
      portrait_idxs_gt_one imgR i (mem_of_mem_portrait_chunks hch hi)
    cases hup : process_up (bucket_ratios c) imgR
        (landscape_chunks B (landscape_idxs imgR)) 0
        ⟨List.replicate (bucket_ratios c).length [], List.replicate imgR.length none⟩ with
    | error e =>
      intro h
      have he : e = .outOfRange := (Except.error.injEq _ _).mp h
      subst he
      exact process_up_ne_oor (bucket_ratios c) imgR sq hsq hsq1 _ 0 _ hdecL
        (Nat.zero_le sq) hup
    | ok st1 =>
      exact process_down_ne_oor (bucket_ratios c) imgR sq hsq hsq1 _ _ st1 hdecP
        (by omega) (by omega)

/-- C10 amended, witness at the accepted configuration (4096, 1, 10, 1) with
one landscape item and batch size 2. -/
theorem c10_amended_square_and_in_range_witness :
    (1 : ℚ) ∈ bucket_ratios ⟨4096, 1, 10, 1⟩ ∧
      assign_buckets (bucket_ratios ⟨4096, 1, 10, 1⟩) [ratio_of 1 2] 2 ≠
        .error .outOfRange :=
  c10_amended_square_and_in_range ⟨4096, 1, 10, 1⟩ (by decide) (by decide) (by decide)
    [ratio_of 1 2] 2

end Dataset

namespace Dataset

/-! ### Claim C7 -/

theorem getD_replicate_nil (n bk : ℕ) :
    (List.replicate n ([] : List ℕ)).getD bk [] = [] := by
  rw [List.getD_eq_getElem?_getD, List.getElem?_replicate]
  split <;> rfl

theorem mem_zip_getElem {α β : Type} {l : List α} {l' : List β} {p : α × β}
    (hp : p ∈ l.zip l') :
    ∃ t, ∃ (h1 : t < l.length) (h2 : t < l'.length), l[t] = p.1 ∧ l'[t] = p.2 := by
  obtain ⟨⟨t, ht⟩, hget⟩ := List.get_of_mem hp
  have htz : t < (l.zip l').length := ht
  rw [List.length_zip] at htz
  have h1 : t < l.length := by omega
  have h2 : t < l'.length := by omega
  have hq : (l[t], l'[t]) = p := by
    rw [List.get_eq_getElem, List.getElem_zip] at hget
    exact hget
  exact ⟨t, h1, h2, congrArg Prod.fst hq, congrArg Prod.snd hq⟩

/-- C7 counterexample input: the accepted configuration
(4096, 1, 10, 1) whose lexicographically sorted table has the ratio-10
bucket `(10, 1)` at index 9, just after the landscape ratios 0.1 … 0.9. -/
def c7_table : List ℚ := bucket_ratios ⟨4096, 1, 10, 1⟩

/-- C7 counterexample items: five landscape items whose ratios 1/2, 1/2,
1/2, 9/10, 19/20 split (batch size 2) into chunks `[0,1]`, `[2,3]`, `[4]` —
the three items of ratio 1/2 straddle a chunk boundary. -/
def c7_items : List ℚ :=
  [ratio_of 1 2, ratio_of 1 2, ratio_of 1 2, ratio_of 9 10, ratio_of 19 20]

/-- The assignment result of the C7 counterexample run. -/
def c7_st : AssignResult := (assign_buckets c7_table c7_items 2).toOption.getD default

/-- C7 counterexample: items 1 and 2 both have raw ratio 1/2 (so each ratio
is ≤ the other's), yet item 1 is assigned to bucket 4 and item 2 to bucket 8:
the claimed "raw ratio ≤ ⟹ assigned bucket index ≤" relation fails (the
second chunk's deciding member has ratio 9/10, dragging the cursor past
bucket 4 while it still carries a ratio-1/2 item). -/
theorem c7_counterexample :
    assign_buckets c7_table c7_items 2 = .ok c7_st ∧
    c7_items.getD 2 0 ≤ c7_items.getD 1 0 ∧
    (2 : ℕ) ∈ c7_st.bucket_content.getD 8 [] ∧
    (1 : ℕ) ∈ c7_st.bucket_content.getD 4 [] ∧
    ¬ ((8 : ℕ) ≤ 4) := by decide

/-- C7 amended: the monotonicity holds with *strict* ratio comparison: for
every pair of items assigned in one `assign_buckets` pass (on any bucket
table containing a ratio-1 entry, as every table with a positive square side
does), if one item's raw ratio is strictly below the other's, the bucket
index it is assigned to is ≤ the other's — across the landscape pass, the
portrait pass, and between the two passes.  (With ties, equal-ratio items
may straddle a chunk boundary and land in different buckets, see the
counterexample.) -/
theorem c7_amended_strict_monotone (ratios imgR : List ℚ) (B : ℕ)
    (st : AssignResult) (hone : (1 : ℚ) ∈ ratios)
    (hok : assign_buckets ratios imgR B = .ok st)
    (i j bi bj : ℕ) (hij : imgR.getD i 0 < imgR.getD j 0)
    (hi : i ∈ st.bucket_content.getD bi [])
    (hj : j ∈ st.bucket_content.getD bj []) :
    bi ≤ bj := by
  by_cases hB0 : B = 0
  · simp only [assign_buckets, if_pos hB0] at hok
    exact Except.noConfusion hok
  simp only [assign_buckets, if_neg hB0] at hok
  obtain ⟨sq, hsqlt, hsq1⟩ := List.mem_iff_getElem.mp hone
  cases hup : process_up ratios imgR (landscape_chunks B (landscape_idxs imgR)) 0
      ⟨List.replicate ratios.length [], List.replicate imgR.length none⟩ with
  | error e => rw [hup] at hok; exact Except.noConfusion hok
  | ok st1 =>
    rw [hup] at hok
    have hlen0 : (AssignResult.mk (List.replicate ratios.length [])
        (List.replicate imgR.length none)).bucket_content.length = ratios.length := by simp
    obtain ⟨stopsL, hLlen, hlen1, hLbd, hLpw, hLmem⟩ :=
      process_up_ok_char ratios imgR _ 0 _ st1 hup hlen0
    obtain ⟨stopsP, hPlen, hlen2, hPbd, hPpw, hPmem⟩ :=
      process_down_ok_char ratios imgR _ _ st1 st hok hlen1
    have hmem1 : ∀ bk x, x ∈ st1.bucket_content.getD bk [] ↔
        ∃ p ∈ (landscape_chunks B (landscape_idxs imgR)).zip stopsL,
          x ∈ p.1 ∧ p.2 = bk := by
      intro bk x
      rw [hLmem bk x]
      simp [getD_replicate_nil]
    -- value facts for chunk members
    have hLval : ∀ p ∈ (landscape_chunks B (landscape_idxs imgR)).zip stopsL,
        ∀ x ∈ p.1, imgR.getD x 0 ≤ 1 := by
      rintro ⟨pc, ps⟩ hp x hx
      exact landscape_idxs_le_one imgR x
        (mem_of_mem_landscape_chunks (List.of_mem_zip hp).1 hx)
    have hPval : ∀ p ∈ (portrait_chunks B (portrait_idxs imgR)).zip stopsP,
        ∀ x ∈ p.1, 1 < imgR.getD x 0 := by
      rintro ⟨pc, ps⟩ hp x hx
      exact portrait_idxs_gt_one imgR x
        (mem_of_mem_portrait_chunks (List.of_mem_zip hp).1 hx)
    -- within the landscape pass
    have landcase : ∀ x y bx byy, x ∈ st1.bucket_content.getD bx [] →
        y ∈ st1.bucket_content.getD byy [] →
        imgR.getD x 0 < imgR.getD y 0 → bx ≤ byy := by
      intro x y bx byy hx hy hxy
      rw [hmem1] at hx hy
      obtain ⟨px, hpx, hxpx, hbx⟩ := hx
      obtain ⟨py, hpy, hypy, hby⟩ := hy
      obtain ⟨tx, htx, htx', hcx, hsx⟩ := mem_zip_getElem hpx
      obtain ⟨ty, hty, hty', hcy, hsy⟩ := mem_zip_getElem hpy
      have hcpw := landscape_chunks_pairwise (B := B) (landscape_idxs_sorted imgR)
      rcases Nat.lt_trichotomy tx ty with hlt | hEq | hgt
      · have := List.pairwise_iff_getElem.mp hLpw tx ty
          (by omega) (by omega) hlt
        rw [hsx, hsy] at this
        omega
      · subst hEq
        rw [hsx] at hsy
        omega
      · exfalso
        have := List.pairwise_iff_getElem.mp hcpw ty tx hty htx hgt
        rw [hcy, hcx] at this
        exact absurd (this y hypy x hxpx) (not_le.mpr hxy)
    -- within the portrait pass
    have portcase : ∀ x y bx byy,
        (∃ p ∈ (portrait_chunks B (portrait_idxs imgR)).zip stopsP, x ∈ p.1 ∧ p.2 = bx) →
        (∃ p ∈ (portrait_chunks B (portrait_idxs imgR)).zip stopsP, y ∈ p.1 ∧ p.2 = byy) →
        imgR.getD x 0 < imgR.getD y 0 → bx ≤ byy := by
      intro x y bx byy hx hy hxy
      obtain ⟨px, hpx, hxpx, hbx⟩ := hx
      obtain ⟨py, hpy, hypy, hby⟩ := hy
      obtain ⟨tx, htx, htx', hcx, hsx⟩ := mem_zip_getElem hpx
      obtain ⟨ty, hty, hty', hcy, hsy⟩ := mem_zip_getElem hpy
      have hcpw := portrait_chunks_pairwise (B := B) (portrait_idxs_sorted imgR)
      rcases Nat.lt_trichotomy tx ty with hlt | hEq | hgt
      · exfalso
        have := List.pairwise_iff_getElem.mp hcpw tx ty htx hty hlt
        rw [hcx, hcy] at this
        exact absurd (this x hxpx y hypy) (not_le.mpr hxy)
      · subst hEq
        rw [hsx] at hsy
        omega
      · have := List.pairwise_iff_getElem.mp hPpw ty tx
          (by omega) (by omega) hgt
        rw [hsx, hsy] at this
        omega
    -- split the two items by value
    have hjsplit := (hPmem bj j).mp hj
    have hisplit := (hPmem bi i).mp hi
    by_cases hjv : imgR.getD j 0 ≤ 1
    · -- both landscape
      have hiv : imgR.getD i 0 ≤ 1 := le_of_lt (lt_of_lt_of_le hij hjv)
      have hj1 : j ∈ st1.bucket_content.getD bj [] := by
        rcases hjsplit with h | ⟨p, hp, hjp, _⟩
        · exact h
        · exact absurd hjv (not_le.mpr (hPval p hp j hjp))
      have hi1 : i ∈ st1.bucket_content.getD bi [] := by
        rcases hisplit with h | ⟨p, hp, hip, _⟩
        · exact h
        · exact absurd hiv (not_le.mpr (hPval p hp i hip))
      exact landcase i j bi bj hi1 hj1 hij
    · push_neg at hjv
      have hjP : ∃ p ∈ (portrait_chunks B (portrait_idxs imgR)).zip stopsP,
          j ∈ p.1 ∧ p.2 = bj := by
        rcases hjsplit with h | h
        · exfalso
          rw [hmem1] at h
          obtain ⟨p, hp, hjp, _⟩ := h
          exact absurd (hLval p hp j hjp) (not_le.mpr hjv)
        · exact h
      by_cases hiv : imgR.getD i 0 ≤ 1
      · -- i landscape, j portrait: i's bucket ≤ sq ≤ j's bucket
        have hi1 : i ∈ st1.bucket_content.getD bi [] := by
          rcases hisplit with h | ⟨p, hp, hip, _⟩
          · exact h
          · exact absurd hiv (not_le.mpr (hPval p hp i hip))
        have hile : bi ≤ sq := by
          have := process_up_new_mem_le_sq ratios imgR sq hsqlt hsq1 _ 0 _ st1 hup
            (fun c hc x hx =>
              landscape_idxs_le_one imgR x (mem_of_mem_landscape_chunks hc hx))
            (Nat.zero_le sq) bi i hi1
          rcases this with h | h
          · rw [getD_replicate_nil] at h; exact absurd h (List.not_mem_nil i)
          · exact h
        have hjge : sq ≤ bj := by
          have := process_down_new_mem_ge_sq ratios imgR sq hsqlt hsq1 _ _ st1 st hok
            (fun c hc x hx =>
              portrait_idxs_gt_one imgR x (mem_of_mem_portrait_chunks hc hx))
            (by omega) (by omega) bj j hj
          rcases this with h | h
          · exfalso
            rw [hmem1] at h
            obtain ⟨p, hp, hjp, _⟩ := h
            exact absurd (hLval p hp j hjp) (not_le.mpr hjv)
          · exact h
        omega
      · -- both portrait
        push_neg at hiv
        have hiP : ∃ p ∈ (portrait_chunks B (portrait_idxs imgR)).zip stopsP,
            i ∈ p.1 ∧ p.2 = bi := by
          rcases hisplit with h | h
          · exfalso
            rw [hmem1] at h
            obtain ⟨p, hp, hip, _⟩ := h
            exact absurd (hLval p hp i hip) (not_le.mpr hiv)
          · exact h
        exact portcase i j bi bj hiP hjP hij

/-- C7 amended, witness: in the counterexample run, item 0 (ratio 1/2) has
strictly smaller raw ratio than item 3 (ratio 9/10), and its bucket 4 is ≤
item 3's bucket 8. -/
theorem c7_amended_strict_monotone_witness : (4 : ℕ) ≤ 8 :=
  c7_amended_strict_monotone c7_table c7_items 2 c7_st (by decide) (by decide)
    0 3 4 8 (by decide) (by decide) (by decide)

end Dataset

namespace Dataset

/-! ### Claim C8 -/

theorem rot_shuffle_perm (s : ℕ) (l : List ℕ) : (rot_shuffle s l).Perm l := by
  unfold rot_shuffle
  have h := @List.perm_append_comm _ (l.drop (s % max 1 l.length))
    (l.take (s % max 1 l.length))
  rw [List.take_append_drop] at h
  exact h

theorem rot_shuffle_batches_perm (s : ℕ) (l : List (List ℕ)) :
    (rot_shuffle_batches s l).Perm l := by
  unfold rot_shuffle_batches
  have h := @List.perm_append_comm _ (l.drop (s % max 1 l.length))
    (l.take (s % max 1 l.length))
  rw [List.take_append_drop] at h
  exact h

theorem bucket_batches_mem_len (B : ℕ) (hB : 0 < B) (l : List ℕ) :
    ∀ bb ∈ bucket_batches B l, 1 ≤ bb.length ∧ bb.length ≤ B := by
  intro bb hbb
  unfold bucket_batches at hbb
  by_cases hrem : l.length % B = 0
  · rw [if_pos hrem] at hbb
    have hlen : l.length = l.length / B * B :=
      (Nat.div_mul_cancel (Nat.dvd_of_mod_eq_zero hrem)).symm
    have := npSplit_mem_length (l.length / B) B l hlen bb hbb
    omega
  · rw [if_neg hrem] at hbb
    have hmlt : l.length % B < B := Nat.mod_lt _ hB
    have hmle : l.length % B ≤ l.length := Nat.mod_le _ _
    rcases List.mem_append.mp hbb with h | h
    · have hlen : (l.take (l.length - l.length % B)).length = l.length / B * B := by
        rw [List.length_take]
        have := Nat.div_add_mod l.length B
        have : l.length - l.length % B = B * (l.length / B) := by omega
        rw [min_eq_left (by omega), this, Nat.mul_comm]
      have := npSplit_mem_length (l.length / B) B _ hlen bb h
      omega
    · simp only [List.mem_singleton] at h
      subst h
      rw [List.length_drop]
      omega

theorem bucket_batches_flatten (B : ℕ) (hB : 0 < B) (l : List ℕ) :
    (bucket_batches B l).flatten = l := by
  unfold bucket_batches
  by_cases hrem : l.length % B = 0
  · rw [if_pos hrem]
    exact npSplit_flatten _ _ _ (Nat.div_mul_cancel (Nat.dvd_of_mod_eq_zero hrem)).symm
  · rw [if_neg hrem, List.flatten_append]
    have hmle : l.length % B ≤ l.length := Nat.mod_le _ _
    have hlen : (l.take (l.length - l.length % B)).length = l.length / B * B := by
      rw [List.length_take, min_eq_left (by omega)]
      have h := Nat.div_add_mod l.length B
      have h2 : l.length - l.length % B = B * (l.length / B) := by omega
      rw [h2, Nat.mul_comm]
    rw [npSplit_flatten _ _ _ hlen]
    simp [List.take_append_drop]

theorem bucket_batches_sum (B : ℕ) (hB : 0 < B) (l : List ℕ) :
    ((bucket_batches B l).map List.length).sum = l.length := by
  rw [← List.length_flatten, bucket_batches_flatten B hB l]

theorem bucket_batches_short (B : ℕ) (hB : 0 < B) (l : List ℕ) :
    (bucket_batches B l).countP (fun bb => decide (bb.length < B)) ≤ 1 := by
  unfold bucket_batches
  by_cases hrem : l.length % B = 0
  · rw [if_pos hrem]
    have hlen : l.length = l.length / B * B :=
      (Nat.div_mul_cancel (Nat.dvd_of_mod_eq_zero hrem)).symm
    have hz : (npSplit (l.length / B) B l).countP (fun bb => decide (bb.length < B)) = 0 := by
      rw [List.countP_eq_zero]
      intro bb hbb
      have := npSplit_mem_length (l.length / B) B l hlen bb hbb
      simp [this]
    omega
  · rw [if_neg hrem, List.countP_append]
    have hmle : l.length % B ≤ l.length := Nat.mod_le _ _
    have hlen : (l.take (l.length - l.length % B)).length = l.length / B * B := by
      rw [List.length_take, min_eq_left (by omega)]
      have h := Nat.div_add_mod l.length B
      have h2 : l.length - l.length % B = B * (l.length / B) := by omega
      rw [h2, Nat.mul_comm]
    have hz : (npSplit (l.length / B) B
        (l.take (l.length - l.length % B))).countP (fun bb => decide (bb.length < B)) = 0 := by
      rw [List.countP_eq_zero]
      intro bb hbb
      have := npSplit_mem_length (l.length / B) B _ hlen bb hbb
      simp [this]
    have hone : ([l.drop (l.length - l.length % B)] :
        List (List ℕ)).countP (fun bb => decide (bb.length < B)) ≤ 1 := by
      simp only [List.countP_cons, List.countP_nil]
      split <;> omega
    omega

/-- C8: for every bucket-content mapping, nonzero batch size, and
permutation-valued shuffles, `assign_batches` produces batches of length in
`[1, batchSize]`, the summed batch lengths equal the total assigned item
count, and each bucket contributes at most one batch shorter than batchSize
(the global shuffle only permutes the batch list). -/
theorem c8_batch_shape (B : ℕ) (hB : 0 < B)
    (sh : ℕ → List ℕ → List ℕ) (shG : ℕ → List (List ℕ) → List (List ℕ))
    (hsh : ∀ s l, (sh s l).Perm l) (hshG : ∀ g bs, (shG g bs).Perm bs)
    (s0 g0 : ℕ) (content : List (List ℕ)) (batches : List (List ℕ)) (s1 g1 : ℕ)
    (hok : assign_batches B sh shG s0 g0 content = .ok (batches, s1, g1)) :
    (∀ bb ∈ batches, 1 ≤ bb.length ∧ bb.length ≤ B) ∧
    (batches.map List.length).sum = (content.map List.length).sum ∧
    (∀ s l, (bucket_batches B (sh s l)).countP (fun bb => decide (bb.length < B)) ≤ 1) := by
  have haux : ∀ (cs : List (List ℕ)) (acc : List (List ℕ) × ℕ),
      (∀ bb ∈ (cs.foldl (fun (acc : List (List ℕ) × ℕ) bucket =>
          if bucket.isEmpty then acc
          else (acc.1 ++ bucket_batches B (sh acc.2 bucket), acc.2 + 1)) acc).1,
        bb ∈ acc.1 ∨ (1 ≤ bb.length ∧ bb.length ≤ B)) ∧
      ((cs.foldl (fun (acc : List (List ℕ) × ℕ) bucket =>
          if bucket.isEmpty then acc
          else (acc.1 ++ bucket_batches B (sh acc.2 bucket), acc.2 + 1)) acc).1.map
        List.length).sum = (acc.1.map List.length).sum + (cs.map List.length).sum := by
    intro cs
    induction cs with
    | nil =>
      intro acc
      exact ⟨fun bb hbb => Or.inl hbb, by simp⟩
    | cons c rest ih =>
      intro acc
      simp only [List.foldl_cons]
      by_cases hc : c.isEmpty
      · rw [if_pos hc]
        have hc0 : c.length = 0 := by
          rw [List.isEmpty_iff] at hc; simp [hc]
        refine ⟨(ih acc).1, ?_⟩
        rw [(ih acc).2]
        simp [hc0]
      · rw [if_neg hc]
        refine ⟨?_, ?_⟩
        · intro bb hbb
          rcases (ih _).1 bb hbb with hmem | hgood
          · rcases List.mem_append.mp hmem with h | h
            · exact Or.inl h
            · exact Or.inr (bucket_batches_mem_len B hB _ bb h)
          · exact Or.inr hgood
        · rw [(ih _).2]
          simp only [List.map_append, List.sum_append, List.map_cons, List.sum_cons]
          rw [bucket_batches_sum B hB _]
          rw [(hsh acc.2 c).length_eq]
          omega
  simp only [assign_batches, if_neg (Nat.pos_iff_ne_zero.mp hB)] at hok
  injection hok with hok
  obtain ⟨hmem, hsum⟩ := haux content ([], s0)
  have hbatches : batches = shG g0 ((content.foldl (fun (acc : List (List ℕ) × ℕ) bucket =>
      if bucket.isEmpty then acc
      else (acc.1 ++ bucket_batches B (sh acc.2 bucket), acc.2 + 1)) ([], s0)).1) :=
    (congrArg Prod.fst hok).symm
  refine ⟨?_, ?_, fun s l => bucket_batches_short B hB (sh s l)⟩
  · intro bb hbb
    rw [hbatches] at hbb
    have hbb' := (hshG _ _).mem_iff.mp hbb
    rcases hmem bb hbb' with h | h
    · simp at h
    · exact h
  · rw [hbatches]
    have hperm := ((hshG g0 ((content.foldl (fun (acc : List (List ℕ) × ℕ) bucket =>
        if bucket.isEmpty then acc
        else (acc.1 ++ bucket_batches B (sh acc.2 bucket), acc.2 + 1)) ([], s0)).1)).map
      List.length).sum_eq
    rw [hperm, hsum]
    simp

/-- C8 witness: bucket content `[[0,1,2]]`, batch size 2, rotation shuffles:
the produced batches have summed length equal to the content's total. -/
theorem c8_batch_shape_witness :
    (([[0, 1], [2]] : List (List ℕ)).map List.length).sum =
      (([[0, 1, 2]] : List (List ℕ)).map List.length).sum :=
  (c8_batch_shape 2 (by decide) rot_shuffle rot_shuffle_batches rot_shuffle_perm
    rot_shuffle_batches_perm 0 0 [[0, 1, 2]] [[0, 1], [2]] 1 1 (by decide)).2.1

end Dataset

namespace Dataset

/-! ### Claim C9 -/

theorem swap_head_perm {α : Type} : ∀ (t : List α) (j : ℕ) (hj : j < t.length) (a : α),
    (t.get ⟨j, hj⟩ :: t.set j a).Perm (a :: t) := by
  intro t
  induction t with
  | nil => intro j hj a; simp at hj
  | cons b t' ih =>
    intro j hj a
    cases j with
    | zero =>
      simpa using List.Perm.swap a b t'
    | succ j' =>
      have hj' : j' < t'.length := by simpa using hj
      have step1 : (((b :: t') : List α).get ⟨j' + 1, hj⟩ :: (b :: t').set (j' + 1) a) =
          (t'.get ⟨j', hj'⟩ :: b :: t'.set j' a) := by simp
      rw [step1]
      refine (List.Perm.swap _ _ _).trans ?_
      exact ((ih j' hj' a).cons b).trans (List.Perm.swap _ _ _)

theorem set_swap_perm {α : Type} (l : List α) (i : ℕ) (hi : i < l.length) (d : α) :
    ((l.set 0 (l.getD i d)).set i (l.getD 0 d)).Perm l := by
  cases l with
  | nil => simp at hi
  | cons a t =>
    cases i with
    | zero => simp
    | succ j =>
      have hj : j < t.length := by simpa using hi
      have h1 : ((a :: t) : List α).getD (j + 1) d = t.get ⟨j, hj⟩ := by
        rw [List.getD_eq_getElem _ _ hi]
        simp
      have h2 : ((a :: t) : List α).getD 0 d = a := rfl
      rw [h1, h2]
      show (t.get ⟨j, hj⟩ :: t.set j a).Perm (a :: t)
      exact swap_head_perm t j hj a

theorem findSome?_head_spec : ∀ (content : List (List ℕ)) (rep : ℕ),
    content.findSome? List.head? = some rep →
    ∃ k, k < content.length ∧ (content.getD k []).head? = some rep ∧
      ∀ k' < k, content.getD k' [] = [] := by
  intro content
  induction content with
  | nil => intro rep h; simp [List.findSome?] at h
  | cons c rest ih =>
    intro rep h
    rw [List.findSome?_cons] at h
    cases hc : c.head? with
    | some r =>
      rw [hc] at h
      injection h with h
      subst h
      exact ⟨0, by simp, by simpa using hc, by omega⟩
    | none =>
      rw [hc] at h
      obtain ⟨k, hk, hhead, hpre⟩ := ih rep h
      have hcnil : c = [] := by
        cases c with
        | nil => rfl
        | cons x xs => simp at hc
      refine ⟨k + 1, by simpa using hk, by simpa using hhead, ?_⟩
      intro k' hk'
      cases k' with
      | zero => simpa using hcnil
      | succ k'' => simpa using hpre k'' (by omega)

/-- C9 counterexample table: the accepted configuration
(targetArea 12288, minSize 8, maxSize 256, step 8), whose lexicographically
sorted table places the square (104,104) (ratio 1) at index 23, just before
(104,112) (ratio 13/14) at index 24 and (112,104) (ratio 14/13) at
index 25. -/
def c9_table : List ℚ := bucket_ratios ⟨12288, 8, 256, 8⟩

/-- C9 counterexample items: one landscape item (ratio 19/20) and three
portrait items (ratios 21/20, 6/5, 6/5). -/
def c9_items : List ℚ :=
  [ratio_of 19 20, ratio_of 21 20, ratio_of 6 5, ratio_of 6 5]

/-- The assignment result of the C9 counterexample run, spelled out:
item 0 in bucket 23 (the square, ratio 1), item 1 in bucket 24
(ratio 13/14, the portrait cursor overshoots into a landscape bucket),
items 2 and 3 in bucket 25 (ratio 14/13); 49 buckets in total. -/
def c9_st : AssignResult :=
  { bucket_content := List.replicate 23 [] ++ [[0], [1], [2, 3]] ++ List.replicate 23 []
    to_ratio := [some 1, some (ratio_of 13 14), some (ratio_of 14 13), some (ratio_of 14 13)] }

set_option maxRecDepth 8192 in
/-- C9 counterexample: the claim fails on the code.  On the run above the
populated buckets are exactly 23, 24 and 25, whose ratios are 1, 13/14 and
14/13 — bucket 23's ratio lies strictly *between* the populated extremes.
`put_most_oom_like_batch_first` puts bucket 23's batch `[0]` at position 0
(the representative is the head of the first populated bucket in *table
index* order, and the lex-sorted table is not ratio-sorted), so position 0
does not hold a batch drawn from the lowest- or highest-ratio populated
bucket. -/
theorem c9_counterexample :
    assign_buckets c9_table c9_items 2 = .ok c9_st ∧
    (List.range c9_st.bucket_content.length).filter
      (fun k => !(c9_st.bucket_content.getD k []).isEmpty) = [23, 24, 25] ∧
    c9_st.bucket_content.getD 23 [] = [0] ∧
    c9_st.bucket_content.getD 24 [] = [1] ∧
    c9_st.bucket_content.getD 25 [] = [2, 3] ∧
    c9_table.getD 24 0 < c9_table.getD 23 0 ∧
    c9_table.getD 23 0 < c9_table.getD 25 0 ∧
    assign_batches 2 rot_shuffle rot_shuffle_batches 42 0 c9_st.bucket_content =
      .ok ([[0], [1], [2, 3]], 45, 1) ∧
    put_most_oom_like_batch_first c9_st.bucket_content [[0], [1], [2, 3]] =
      some [[0], [1], [2, 3]] ∧
    ([[0], [1], [2, 3]] : List (List ℕ)).getD 0 [] = [0] := by decide

/-- C9 amended: after `put_most_oom_like_batch_first` runs once on bucket
content with at least one non-empty bucket, the batch order is a permutation
(one swap) of the input order, and position 0 holds a batch containing the
head item of the *first* non-empty bucket in table order (python's
`chain(bucket_content, reversed(bucket_content))` always finds its
representative in the forward half whenever any bucket is non-empty) — the
lowest-*index* populated bucket, which coincides with a ratio-extreme bucket
only when the table is ratio-sorted (it is lex-sorted, see the
counterexample). -/
theorem c9_lead_batch (content batches res : List (List ℕ))
    (hne : ∃ bkt ∈ content, bkt ≠ [])
    (hres : put_most_oom_like_batch_first content batches = some res) :
    res.Perm batches ∧
    ∃ k rep, k < content.length ∧
      (content.getD k []).head? = some rep ∧
      (∀ k' < k, content.getD k' [] = []) ∧
      rep ∈ res.getD 0 [] := by
  unfold put_most_oom_like_batch_first at hres
  cases hfs : (content ++ content.reverse).findSome? List.head? with
  | none =>
    rw [hfs] at hres
    dsimp only at hres
    exact Option.noConfusion hres
  | some rep =>
    rw [hfs] at hres
    dsimp only at hres
    have hfwd : content.findSome? List.head? = some rep := by
      rw [List.findSome?_append] at hfs
      cases hfc : content.findSome? List.head? with
      | some r => rw [hfc] at hfs; simpa using hfs
      | none =>
        exfalso
        obtain ⟨bkt, hbkt, hbne⟩ := hne
        have := List.findSome?_eq_none.mp hfc bkt hbkt
        cases bkt with
        | nil => exact hbne rfl
        | cons x xs => simp at this
    obtain ⟨k, hk, hhead, hpre⟩ := findSome?_head_spec content rep hfwd
    cases hidx : batches.findIdx? (fun b => b.contains rep) with
    | none =>
      rw [hidx] at hres
      dsimp only at hres
      exact Option.noConfusion hres
    | some i =>
      rw [hidx] at hres
      dsimp only at hres
      injection hres with hres
      obtain ⟨hilt, hfi⟩ := (List.findIdx?_eq_some_iff_findIdx_eq).mp hidx
      have hpi : (fun b => b.contains rep) (batches.get ⟨i, hilt⟩) = true := by
        subst hfi
        rw [List.get_eq_getElem]
        exact List.findIdx_getElem
      have hrep_mem : rep ∈ batches.get ⟨i, hilt⟩ :=
        List.mem_of_elem_eq_true hpi
      have h0lt : 0 < batches.length := by omega
      subst hres
      refine ⟨?_, k, rep, hk, hhead, hpre, ?_⟩
      · exact set_swap_perm batches i hilt []
      · by_cases hi0 : i = 0
        · subst hi0
          have hmem0 : rep ∈ batches.getD 0 [] := by
            rw [List.getD_eq_getElem _ _ h0lt]
            exact hrep_mem
          rw [getD_set_eq_if, getD_set_eq_if]
          split
          · exact hmem0
          · split
            · exact hmem0
            · exact hmem0
        · have hmemi : rep ∈ batches.getD i [] := by
            rw [List.getD_eq_getElem _ _ hilt]
            exact hrep_mem
          have hcondF : ¬ (i = 0 ∧ 0 < (batches.set 0 (batches.getD i [])).length) := by
            intro hc
            exact hi0 hc.1
          rw [getD_set_eq_if, if_neg hcondF, getD_set_eq_if]
          have hcondT : (0 : ℕ) = 0 ∧ 0 < batches.length := ⟨rfl, h0lt⟩
          rw [if_pos hcondT]
          exact hmemi

/-- C9 witness: content `[[], [3,4], [], [7]]`, batches `[[7], [3,4]]`: the
selector swaps, giving `[[3,4], [7]]`, a permutation of the input whose
position 0 holds the first non-empty bucket's representative 3. -/
theorem c9_lead_batch_witness :
    (([[3, 4], [7]] : List (List ℕ))).Perm [[7], [3, 4]] :=
  (c9_lead_batch [[], [3, 4], [], [7]] [[7], [3, 4]] [[3, 4], [7]]
    ⟨[3, 4], by decide, by decide⟩ (by decide)).1

end Dataset

namespace Dataset

/-! ### Item-count bookkeeping for C6 -/

theorem sum_map_length_set : ∀ (l : List (List ℕ)) (i : ℕ), i < l.length → ∀ c : List ℕ,
    ((l.set i (l.getD i [] ++ c)).map List.length).sum =
      (l.map List.length).sum + c.length := by
  intro l
  induction l with
  | nil => intro i hi; simp at hi
  | cons a t ih =>
    intro i hi c
    cases i with
    | zero =>
      simp only [List.getD_cons_zero, List.set_cons_zero, List.map_cons, List.sum_cons,
        List.length_append]
      omega
    | succ j =>
      have hj : j < t.length := by simpa using hi
      simp only [List.getD_cons_succ, List.set_cons_succ, List.map_cons, List.sum_cons]
      rw [ih j hj c]
      omega

theorem process_up_sum (ratios imgR : List ℚ) :
    ∀ (chunks : List (List ℕ)) (b : ℕ) (st st' : AssignResult),
      process_up ratios imgR chunks b st = .ok st' →
      st.bucket_content.length = ratios.length →
      st'.bucket_content.length = ratios.length ∧
      (st'.bucket_content.map List.length).sum =
        (st.bucket_content.map List.length).sum + (chunks.map List.length).sum := by
  intro chunks
  induction chunks with
  | nil =>
    intro b st st' h hlen
    simp only [process_up] at h
    injection h with h
    subst h
    exact ⟨hlen, by simp⟩
  | cons c rest ih =>
    intro b st st' h hlen
    cases hlast : c.getLast? with
    | none =>
      simp only [process_up, hlast] at h
      exact Except.noConfusion h
    | some idx =>
      cases hadv : advance_up ratios (imgR.getD idx 0) b with
      | error e =>
        simp only [process_up, hlast, hadv] at h
        exact Except.noConfusion h
      | ok b1 =>
        simp only [process_up, hlast, hadv] at h
        have hb1lt : b1 < ratios.length := (advance_up_ok_bounds hadv).2
        have hlen1 : (st.bucket_content.set b1
            (st.bucket_content.getD b1 [] ++ c)).length = ratios.length := by simp [hlen]
        obtain ⟨hlenf, hsumf⟩ := ih b1 _ st' h hlen1
        refine ⟨hlenf, ?_⟩
        rw [hsumf, sum_map_length_set st.bucket_content b1 (by omega) c]
        simp only [List.map_cons, List.sum_cons]
        omega

theorem process_down_sum (ratios imgR : List ℚ) :
    ∀ (chunks : List (List ℕ)) (b : ℕ) (st st' : AssignResult),
      process_down ratios imgR chunks b st = .ok st' →
      st.bucket_content.length = ratios.length →
      st'.bucket_content.length = ratios.length ∧
      (st'.bucket_content.map List.length).sum =
        (st.bucket_content.map List.length).sum + (chunks.map List.length).sum := by
  intro chunks
  induction chunks with
  | nil =>
    intro b st st' h hlen
    simp only [process_down] at h
    injection h with h
    subst h
    exact ⟨hlen, by simp⟩
  | cons c rest ih =>
    intro b st st' h hlen
    cases hlast : c.head? with
    | none =>
      simp only [process_down, hlast] at h
      exact Except.noConfusion h
    | some idx =>
      cases hadv : advance_down ratios (imgR.getD idx 0) b with
      | error e =>
        simp only [process_down, hlast, hadv] at h
        exact Except.noConfusion h
      | ok b1 =>
        simp only [process_down, hlast, hadv] at h
        have hb1lt : b1 < ratios.length := (advance_down_ok_bounds hadv).2
        have hlen1 : (st.bucket_content.set b1
            (st.bucket_content.getD b1 [] ++ c)).length = ratios.length := by simp [hlen]
        obtain ⟨hlenf, hsumf⟩ := ih b1 _ st' h hlen1
        refine ⟨hlenf, ?_⟩
        rw [hsumf, sum_map_length_set st.bucket_content b1 (by omega) c]
        simp only [List.map_cons, List.sum_cons]
        omega

theorem npSplit_length (s : ℕ) : ∀ (k : ℕ) (l : List ℕ), (npSplit k s l).length = k := by
  intro k
  induction k with
  | zero => intro l; simp [npSplit]
  | succ k ih => intro l; simp [npSplit, ih]

theorem landscape_chunks_flatten (B : ℕ) (L : List ℕ) (hB : 0 < B)
    (hrem : L.length % B ≠ 0) : (landscape_chunks B L).flatten = L := by
  have hmodle : L.length % B ≤ L.length := Nat.mod_le _ _
  rcases Nat.lt_or_ge L.length B with hsm | hge
  · have hne : L ≠ [] := by intro h; subst h; simp at hrem
    have hz : L.length - L.length % B = 0 := by
      rw [Nat.mod_eq_of_lt hsm]; omega
    rw [landscape_chunks_eq_small B L hsm hne]
    simp
  · rw [landscape_chunks_eq B L hB hrem hge]
    have h2 : L.length - L.length % B = B * (L.length / B) := by
      have := Nat.div_add_mod L.length B; omega
    have htl : (L.take (L.length - L.length % B)).length = L.length / B * B := by
      rw [List.length_take, min_eq_left (by omega), h2, Nat.mul_comm]
    rw [List.flatten_append, npSplit_flatten (L.length / B) B _ htl]
    simp [List.take_append_drop]

theorem portrait_chunks_sum (B : ℕ) (hB : 0 < B) (P : List ℕ) :
    ((portrait_chunks B P).map List.length).sum = P.length := by
  have hmodle : P.length % B ≤ P.length := Nat.mod_le _ _
  by_cases hBn : B ≤ P.length
  · rw [portrait_chunks_eq B P hB hBn]
    have h2 : P.length - P.length % B = B * (P.length / B) := by
      have := Nat.div_add_mod P.length B; omega
    have hlen : (P.drop (P.length % B)).length = P.length / B * B := by
      rw [List.length_drop, h2, Nat.mul_comm]
    rw [List.map_append, List.sum_append, List.map_reverse, List.sum_reverse]
    rw [← List.length_flatten, npSplit_flatten _ _ _ hlen, List.length_drop]
    by_cases hrem : P.length % B = 0
    · rw [if_pos hrem]
      simp [hrem]
    · rw [if_neg hrem]
      simp only [List.map_cons, List.map_nil, List.sum_cons, List.sum_nil,
        List.length_take]
      omega
  · by_cases hP : P = []
    · subst hP
      rw [portrait_chunks_nil]
      simp
    · rw [portrait_chunks_eq_small B P (by omega) hP]
      simp

theorem length_filter_add_length_filter_not {α : Type} (p : α → Bool) :
    ∀ l : List α,
      (l.filter p).length + (l.filter (fun a => !(p a))).length = l.length := by
  intro l
  induction l with
  | nil => simp
  | cons a t ih =>
    by_cases hpa : p a <;> simp [List.filter_cons, hpa] <;> omega

theorem landscape_portrait_partition (imgR : List ℚ) :
    (landscape_idxs imgR).length + (portrait_idxs imgR).length = imgR.length := by
  unfold landscape_idxs portrait_idxs
  rw [length_filter_add_length_filter_not]
  unfold img_idxs
  rw [(List.perm_insertionSort _ _).length_eq, List.length_range]

theorem assign_buckets_sum (ratios imgR : List ℚ) (B : ℕ) (st : AssignResult)
    (hok : assign_buckets ratios imgR B = .ok st) :
    (st.bucket_content.map List.length).sum = imgR.length := by
  by_cases hB0 : B = 0
  · simp only [assign_buckets, if_pos hB0] at hok
    exact Except.noConfusion hok
  have hB : 0 < B := Nat.pos_of_ne_zero hB0
  simp only [assign_buckets, if_neg hB0] at hok
  cases hup : process_up ratios imgR (landscape_chunks B (landscape_idxs imgR)) 0
      ⟨List.replicate ratios.length [], List.replicate imgR.length none⟩ with
  | error e => rw [hup] at hok; exact Except.noConfusion hok
  | ok st1 =>
    rw [hup] at hok
    have hlen0 : (AssignResult.mk (List.replicate ratios.length [])
        (List.replicate imgR.length none)).bucket_content.length = ratios.length := by simp
    obtain ⟨hlen1, hsum1⟩ := process_up_sum ratios imgR _ 0 _ st1 hup hlen0
    obtain ⟨_, hsum2⟩ := process_down_sum ratios imgR _ _ st1 st hok hlen1
    have hLsum : ((landscape_chunks B (landscape_idxs imgR)).map List.length).sum =
        (landscape_idxs imgR).length := by
      by_cases hrem : (landscape_idxs imgR).length % B = 0
      · by_cases hBn : B ≤ (landscape_idxs imgR).length
        · exfalso
          rw [landscape_chunks_eq_crash B _ hrem hBn] at hup
          have hq : 0 < (landscape_idxs imgR).length / B := Nat.div_pos hBn hB
          cases hq' : (landscape_idxs imgR).length / B with
          | zero => omega
          | succ k =>
            rw [hq'] at hup
            simp [npSplit, process_up] at hup
        · have hL0 : (landscape_idxs imgR).length = 0 := by
            have := Nat.mod_eq_of_lt (by omega : (landscape_idxs imgR).length < B)
            omega
          rw [List.length_eq_zero.mp hL0, landscape_chunks_nil]
          simp [hL0]
      · rw [← List.length_flatten, landscape_chunks_flatten B _ hB hrem]
    have hPsum := portrait_chunks_sum B hB (portrait_idxs imgR)
    have hstart : ((List.replicate ratios.length ([] : List ℕ)).map List.length).sum = 0 := by
      simp
    rw [hsum2, hsum1, hstart, hLsum, hPsum]
    rw [Nat.zero_add, landscape_portrait_partition]

end Dataset

namespace Dataset

/-! ### Batch counts for C6 -/

theorem bucket_batches_count (B : ℕ) (hB : 0 < B) (l : List ℕ) :
    (bucket_batches B l).length = reported_length l.length B := by
  unfold bucket_batches reported_length
  by_cases hrem : l.length % B = 0
  · rw [if_pos hrem, npSplit_length]
    have hEq : l.length + B - 1 = B - 1 + B * (l.length / B) := by
      have := Nat.div_add_mod l.length B
      omega
    rw [hEq, Nat.add_mul_div_left _ _ hB,
      Nat.div_eq_of_lt (show B - 1 < B by omega)]
    omega
  · rw [if_neg hrem]
    rw [List.length_append, npSplit_length]
    have hd : B * (l.length / B + 1) = B * (l.length / B) + B := by ring
    have hEq : l.length + B - 1 = B * (l.length / B + 1) + (l.length % B - 1) := by
      have := Nat.div_add_mod l.length B
      have := Nat.mod_lt l.length hB
      omega
    rw [hEq, Nat.mul_add_div hB,
      Nat.div_eq_of_lt (show l.length % B - 1 < B by
        have := Nat.mod_lt l.length hB; omega)]
    simp

theorem reported_length_le_mul (B : ℕ) (hB : 0 < B) (n : ℕ) :
    n ≤ B * reported_length n B ∧ B * reported_length n B < n + B := by
  unfold reported_length
  have h1 := Nat.div_add_mod (n + B - 1) B
  have h2 := Nat.mod_lt (n + B - 1) hB
  omega

theorem reported_length_superadd (B : ℕ) (hB : 0 < B) (a b : ℕ) :
    reported_length (a + b) B ≤ reported_length a B + reported_length b B := by
  have ha := (reported_length_le_mul B hB a).1
  have hb := (reported_length_le_mul B hB b).1
  unfold reported_length
  rw [Nat.div_le_iff_le_mul_add_pred hB, Nat.mul_add]
  unfold reported_length at ha hb
  omega

theorem assign_batches_count_ge (B : ℕ) (hB : 0 < B)
    (sh : ℕ → List ℕ → List ℕ) (shG : ℕ → List (List ℕ) → List (List ℕ))
    (hsh : ∀ s l, (sh s l).Perm l) (hshG : ∀ g bs, (shG g bs).Perm bs)
    (s0 g0 : ℕ) (content : List (List ℕ)) (batches : List (List ℕ)) (s1 g1 : ℕ)
    (hok : assign_batches B sh shG s0 g0 content = .ok (batches, s1, g1)) :
    reported_length ((content.map List.length).sum) B ≤ batches.length := by
  have haux : ∀ (cs : List (List ℕ)) (acc : List (List ℕ) × ℕ),
      reported_length ((cs.map List.length).sum) B + acc.1.length ≤
        ((cs.foldl (fun (acc : List (List ℕ) × ℕ) bucket =>
          if bucket.isEmpty then acc
          else (acc.1 ++ bucket_batches B (sh acc.2 bucket), acc.2 + 1)) acc).1).length := by
    intro cs
    induction cs with
    | nil =>
      intro acc
      simp only [List.map_nil, List.sum_nil, List.foldl_nil]
      have : reported_length 0 B = 0 := by
        unfold reported_length
        rw [Nat.div_eq_of_lt (by omega)]
      omega
    | cons c rest ih =>
      intro acc
      simp only [List.map_cons, List.sum_cons, List.foldl_cons]
      by_cases hc : c.isEmpty
      · rw [if_pos hc]
        have hc0 : c.length = 0 := by
          rw [List.isEmpty_iff] at hc; simp [hc]
        rw [hc0, Nat.zero_add]
        exact ih acc
      · rw [if_neg hc]
        have hsuper := reported_length_superadd B hB c.length ((rest.map List.length).sum)
        have hstep := ih (acc.1 ++ bucket_batches B (sh acc.2 c), acc.2 + 1)
        have hcount : (bucket_batches B (sh acc.2 c)).length =
            reported_length c.length B := by
          rw [bucket_batches_count B hB, (hsh acc.2 c).length_eq]
        simp only [List.length_append] at hstep
        omega
  simp only [assign_batches, if_neg (Nat.pos_iff_ne_zero.mp hB)] at hok
  injection hok with hok
  have hbatches : batches = shG g0 ((content.foldl (fun (acc : List (List ℕ) × ℕ) bucket =>
      if bucket.isEmpty then acc
      else (acc.1 ++ bucket_batches B (sh acc.2 bucket), acc.2 + 1)) ([], s0)).1) :=
    (congrArg Prod.fst hok).symm
  have hlenperm := (hshG g0 ((content.foldl (fun (acc : List (List ℕ) × ℕ) bucket =>
      if bucket.isEmpty then acc
      else (acc.1 ++ bucket_batches B (sh acc.2 bucket), acc.2 + 1)) ([], s0)).1)).length_eq
  have := haux content ([], s0)
  rw [hbatches, hlenperm]
  simpa using this

end Dataset

namespace Dataset

/-! ### Claim C6 -/

/-- C6 counterexample dataset: one landscape item (ratio 1/2) and one
portrait item (ratio 2), batch size 2, table of config (4096, 1, 10, 1). -/
def c6_ds0 : DS :=
  init_DS (bucket_ratios ⟨4096, 1, 10, 1⟩) [ratio_of 1 2, ratio_of 2 1] 2 42

/-- One reassignment pass (`assign_buckets` then `assign_batches`) on the
C6 counterexample dataset. -/
def c6_run : Except AssignErr DS :=
  c6_ds0.assignBuckets.bind (DS.assignBatches rot_shuffle rot_shuffle_batches)

/-- The state after `assign_buckets` in the C6 run (spelled out: item 0 in
bucket 4, item 1 in bucket 19, assigned ratios 1/2 and 1). -/
def c6_d1 : DS :=
  { c6_ds0 with
    bucket_content :=
      [[], [], [], [], [0], [], [], [], [], [], [], [], [], [], [], [], [], [], [], [1]]
    to_ratio := [some (ratio_of 1 2), some 1] }

/-- The state after the full C6 run: two singleton batches. -/
def c6_d2 : DS :=
  { c6_d1 with batch_idxs := [[0], [1]], self_rng := 44, np_global := 1 }

/-- C6 counterexample: the reported length is `ceil(2 / 2) = 1`, but the
batch-building pass produces 2 batches — the landscape item and the portrait
item land in different buckets, each yielding its own short batch.  The
claim's third conjunct ("equals the number of batches produced") is false. -/
theorem c6_counterexample :
    c6_run = .ok c6_d2 ∧ c6_d2.length_field = 1 ∧
      c6_d2.batch_idxs.length = 2 ∧
      c6_d2.length_field ≠ c6_d2.batch_idxs.length := by decide

/-- C6 amended: the externally reported length equals
`ceil(itemCount / batchSize)` (characterized by the two multiplicative
bounds below), is unchanged by `assign_buckets` and `assign_batches`
(stability across reassignments), and is a *lower bound* on — not always
equal to — the number of batches produced by the batch-building pass (it can
be strictly smaller when both orientation passes leave remainder batches in
distinct buckets). -/
theorem c6_amended_reported_length (ratios imgR : List ℚ) (B seed : ℕ) (hB : 0 < B)
    (sh : ℕ → List ℕ → List ℕ) (shG : ℕ → List (List ℕ) → List (List ℕ))
    (hsh : ∀ s l, (sh s l).Perm l) (hshG : ∀ g bs, (shG g bs).Perm bs)
    (d1 d2 : DS)
    (h1 : (init_DS ratios imgR B seed).assignBuckets = .ok d1)
    (h2 : d1.assignBatches sh shG = .ok d2) :
    (init_DS ratios imgR B seed).length_field = reported_length imgR.length B ∧
    d1.length_field = (init_DS ratios imgR B seed).length_field ∧
    d2.length_field = d1.length_field ∧
    imgR.length ≤ B * reported_length imgR.length B ∧
    B * reported_length imgR.length B < imgR.length + B ∧
    reported_length imgR.length B ≤ d2.batch_idxs.length := by
  simp only [DS.assignBuckets, init_DS] at h1
  cases hab : assign_buckets ratios imgR B with
  | error e => rw [hab] at h1; exact Except.noConfusion h1
  | ok st =>
    rw [hab] at h1
    dsimp only at h1
    injection h1 with h1
    subst h1
    simp only [DS.assignBatches, init_DS] at h2
    cases hab2 : assign_batches B sh shG seed 0 st.bucket_content with
    | error e =>
      rw [hab2] at h2
      exact Except.noConfusion h2
    | ok triple =>
      obtain ⟨bs, s1, g1⟩ := triple
      rw [hab2] at h2
      dsimp only at h2
      injection h2 with h2
      subst h2
      have hsum : (st.bucket_content.map List.length).sum = imgR.length :=
        assign_buckets_sum ratios imgR B st hab
      have hge := assign_batches_count_ge B hB sh shG hsh hshG seed 0
        st.bucket_content bs s1 g1 hab2
      rw [hsum] at hge
      have hceil := reported_length_le_mul B hB imgR.length
      exact ⟨rfl, rfl, rfl, hceil.1, hceil.2, hge⟩

set_option maxHeartbeats 1000000 in
/-- C6 amended, witness at the counterexample instance: the reported length
1 is indeed ≤ the 2 produced batches. -/
theorem c6_amended_reported_length_witness :
    reported_length 2 2 ≤ c6_d2.batch_idxs.length := by
  have h := c6_amended_reported_length (bucket_ratios ⟨4096, 1, 10, 1⟩)
    [ratio_of 1 2, ratio_of 2 1] 2 42 (by decide)
    rot_shuffle rot_shuffle_batches rot_shuffle_perm rot_shuffle_batches_perm
    c6_d1 c6_d2 (by decide) (by decide)
  exact h.2.2.2.2.2

end Dataset
